import Mathlib

/-!
# A shallow embedding of `src/radix_tree.c` (compressed TRIE over the digit alphabet)

Modelling conventions, chosen to mirror the C source as directly as a functional
embedding allows:

* A key / label symbol is modelled as the `Nat` value that
  `radixTreeConvertCharToNumber` (`c - '0'`) produces for it, so the supported
  digit alphabet is `{0, …, 9}` and `radixTreeConvertCharToNumber` becomes the
  identity.  A C string is a `List Nat` of such symbols.
* `struct RadixTreeNode` becomes `RNode`: the owned label `txt`, the optional
  externally-owned payload `data` (payload references are modelled as `Nat`),
  and the `RADIX_TREE_NUMBER_OF_SONS`-element child array `sons` (a `Sons`
  value, isomorphic to `List (Option RNode)`).  The scratch field `foldI` used
  only by the iterative teardown is modelled as explicit machine state
  (`DelState`) rather than as a node field; the `father` back-pointer is
  represented by the path structure below.
* A node of a tree is identified by its access path from the root: the list of
  child-array indices followed to reach it (`nodeAt`).  Following the `father`
  pointer is `List.dropLast` on the path.  In-place pointer surgery on the
  node graph becomes `updateAt` on the functional tree.
* `malloc` outcomes are an explicit allocation plan: a `List Bool` consumed one
  entry per allocation attempt (`allocStep`); an exhausted plan means every
  further allocation succeeds, so the plan `[]` is the "no failures" run.
  An operation that can fail returns `none` exactly where the C returns
  `NULL` / `RADIX_TREE_OPERATION_FAIL`.
* The header `radix_tree.h` is not part of the sources, so the two constants it
  defines are modelled from the spec: `RADIX_TREE_NUMBER_OF_SONS` is 10 (the
  decimal digit alphabet) and `RADIX_TREE_ROOT_TXT` is a reserved sentinel
  label that can never equal a label produced from digit keys; we model it as
  `[10]`, a one-symbol string whose symbol lies outside the digit alphabet.
* Loops that the C source drives by pointer mutation are embedded as
  fuel-indexed recursions; every theorem below is stated with enough fuel, and
  the fuel bounds are themselves justified by the termination lemmas.
-/

mutual

inductive RNode : Type where
  | mk (txt : List Nat) (data : Option Nat) (sons : Sons) : RNode

inductive Sons : Type where
  | nil : Sons
  | cons (hd : Option RNode) (tl : Sons) : Sons

end

def RNode.txt : RNode → List Nat
  | .mk t _ _ => t

def RNode.data : RNode → Option Nat
  | .mk _ d _ => d

def RNode.sons : RNode → Sons
  | .mk _ _ s => s

mutual

def RNode.decEq : (a b : RNode) → Decidable (a = b)
  | .mk t1 d1 s1, .mk t2 d2 s2 =>
    match decEq t1 t2 with
    | isFalse h => isFalse (by intro hc; cases hc; exact h rfl)
    | isTrue h1 =>
      match decEq d1 d2 with
      | isFalse h => isFalse (by intro hc; cases hc; exact h rfl)
      | isTrue h2 =>
        match Sons.decEq s1 s2 with
        | isFalse h => isFalse (by intro hc; cases hc; exact h rfl)
        | isTrue h3 => isTrue (by rw [h1, h2, h3])

def Sons.decEq : (a b : Sons) → Decidable (a = b)
  | .nil, .nil => isTrue rfl
  | .nil, .cons _ _ => isFalse (by intro hc; cases hc)
  | .cons _ _, .nil => isFalse (by intro hc; cases hc)
  | .cons none tl1, .cons none tl2 =>
    match Sons.decEq tl1 tl2 with
    | isFalse h => isFalse (by intro hc; cases hc; exact h rfl)
    | isTrue h => isTrue (by rw [h])
  | .cons none _, .cons (some _) _ => isFalse (by intro hc; cases hc)
  | .cons (some _) _, .cons none _ => isFalse (by intro hc; cases hc)
  | .cons (some c1) tl1, .cons (some c2) tl2 =>
    match RNode.decEq c1 c2 with
    | isFalse h => isFalse (by intro hc; cases hc; exact h rfl)
    | isTrue h1 =>
      match Sons.decEq tl1 tl2 with
      | isFalse h => isFalse (by intro hc; cases hc; exact h rfl)
      | isTrue h2 => isTrue (by rw [h1, h2])

end

instance : DecidableEq RNode := RNode.decEq

instance : DecidableEq Sons := Sons.decEq

/-- Indexing into the child array: `node->sons[i]`; out-of-range reads yield
`none` (in range they never are, for well-formed trees). -/
def Sons.get : Sons → Nat → Option RNode
  | .nil, _ => none
  | .cons hd _, 0 => hd
  | .cons _ tl, i + 1 => Sons.get tl i

/-- Writing a child-array slot: `node->sons[i] = v`; out-of-range writes are
dropped (they cannot arise on well-formed trees). -/
def Sons.set : Sons → Nat → Option RNode → Sons
  | .nil, _, _ => .nil
  | .cons _ tl, 0, v => .cons v tl
  | .cons hd tl, i + 1, v => .cons hd (Sons.set tl i v)

def Sons.len : Sons → Nat
  | .nil => 0
  | .cons _ tl => Sons.len tl + 1

/-- The number of non-empty slots, as counted by `radixTreeHowManySons`. -/
def Sons.countSome : Sons → Nat
  | .nil => 0
  | .cons none tl => Sons.countSome tl
  | .cons (some _) tl => Sons.countSome tl + 1

/-- The first non-empty slot, as found by `radixTreeFristSon`. -/
def Sons.firstSome : Sons → Option RNode
  | .nil => none
  | .cons (some c) _ => some c
  | .cons none tl => Sons.firstSome tl

/-- An all-empty child array of the given size (a freshly initialised node's
`sons`, cf. `radixTreeInitNode`). -/
def Sons.blank : Nat → Sons
  | 0 => .nil
  | n + 1 => .cons none (Sons.blank n)

/-- Modelled from the spec: `RADIX_TREE_NUMBER_OF_SONS` from the missing header
`radix_tree.h`; the alphabet is the ten decimal digits (spec §1, §6). -/
def RADIX_TREE_NUMBER_OF_SONS : Nat := 10

/-- Modelled from the spec: `RADIX_TREE_ROOT_TXT` from the missing header
`radix_tree.h`.  Per spec §3/§9 it is a reserved sentinel label that must never
equal any label producible from digit keys, so we model it as a string holding
one out-of-alphabet symbol. -/
def RADIX_TREE_ROOT_TXT : List Nat := [RADIX_TREE_NUMBER_OF_SONS]

def emptySons : Sons := Sons.blank RADIX_TREE_NUMBER_OF_SONS

/-- `radixTreeIsRoot`: a node is recognised as the root by comparing its label
with the sentinel.  (The C additionally checks `txt != NULL`; the transient
`NULL` label of a node under construction is not observable in the functional
model.) -/
def radixTreeIsRoot (node : RNode) : Bool :=
  decide (node.txt = RADIX_TREE_ROOT_TXT)

/-- `radixTreeConvertCharToNumber` — the identity, because symbols are already
modelled by their converted digit value. -/
def radixTreeConvertCharToNumber (sonId : Nat) : Nat := sonId

/-- Reading the child slot for a symbol: `node->sons[convert(son)]`. -/
def radixTreeSonAt (node : RNode) (son : Nat) : Option RNode :=
  Sons.get node.sons (radixTreeConvertCharToNumber son)

/-- `radixTreeHasSon`. -/
def radixTreeHasSon (node : RNode) (son : Nat) : Bool :=
  (radixTreeSonAt node son).isSome

/-- `radixTreeChangeSon node son ch`: `node->sons[convert(son)] = ch`. -/
def radixTreeChangeSon (node : RNode) (son : Nat) (ch : Option RNode) : RNode :=
  RNode.mk node.txt node.data (Sons.set node.sons (radixTreeConvertCharToNumber son) ch)

/-- `radixTreeHowManySons`. -/
def radixTreeHowManySons (node : RNode) : Nat :=
  Sons.countSome node.sons

/-- `radixTreeHasSons`. -/
def radixTreeHasSons (node : RNode) : Bool :=
  decide (radixTreeHowManySons node ≠ 0)

/-- `radixTreeIsNodeRedundant`: non-root, childless, payload-less. -/
def radixTreeIsNodeRedundant (node : RNode) : Bool :=
  !radixTreeIsRoot node && !radixTreeHasSons node && decide (node.data = none)

/-- `radixTreeCanBeMergedWithSon`: non-root, exactly one child, payload-less. -/
def radixTreeCanBeMergedWithSon (node : RNode) : Bool :=
  !radixTreeIsRoot node && decide (radixTreeHowManySons node = 1) &&
    decide (node.data = none)

/-- `radixTreeFristSon` (name as in the source). -/
def radixTreeFristSon (node : RNode) : Option RNode :=
  Sons.firstSome node.sons

/-- `radixTreeCreate`: a fresh tree is a root node carrying the sentinel label,
no payload and an all-empty child array.  (The C allocation failure returning
`NULL` is not modelled here; no claim is about `create` failing.) -/
def radixTreeCreate : RNode :=
  RNode.mk RADIX_TREE_ROOT_TXT none emptySons

/-- One `malloc` against an explicit allocation plan: pop the next outcome, an
exhausted plan meaning success. -/
def allocStep : List Bool → Bool × List Bool
  | [] => (true, [])
  | b :: bs => (b, bs)

/-- The symbol-by-symbol matching loop inside `radixTreeMoveTxt`: advance over
the node label and the key while both are non-empty and agree; the result is
`(remaining label, remaining key)`. -/
def radixTreeMatchTxt : List Nat → List Nat → List Nat × List Nat
  | i :: is, t :: ts => if i = t then radixTreeMatchTxt is ts else (i :: is, t :: ts)
  | is, ts => (is, ts)

/-- `radixTreeMoveTxt`: at the root the whole label is skipped (`stringEnd`),
otherwise the label is matched against the key.  The C result code is
`SUCCESS` iff the remaining label (first component) is empty. -/
def radixTreeMoveTxt (node : RNode) (txt : List Nat) : List Nat × List Nat :=
  if radixTreeIsRoot node then ([], txt) else radixTreeMatchTxt node.txt txt

/-- The outcome of `radixTreeFind`: the reached node (as its access path from
the root), the unmatched remainder of the key (`*txtMatchPtr`) and the
unmatched remainder of the reached node's label (`*nodeMatchPtr`). -/
structure FindOut where
  node : List Nat
  txtRem : List Nat
  nodeRem : List Nat
deriving DecidableEq

/-- The three `radixTreeFind` result codes: `RADIX_TREE_FOUND`,
`RADIX_TREE_SUBSTR`, `RADIX_TREE_NOT_FOUND`. -/
inductive FindStatus : Type where
  | found : FindStatus
  | substr : FindStatus
  | notFound : FindStatus
deriving DecidableEq

/-- The descent loop of `radixTreeFind` (`while (*txtMatchPtr != '\0' &&
radixTreeMove(...) == SUCCESS)`), embedded with explicit fuel.  Arguments:
current node, its access path, remaining key, remaining label of the current
node.  Each loop iteration that continues consumes at least one key symbol on
a well-formed tree, so fuel `txt.length` is exactly enough (proved below). -/
def radixTreeFindGo : Nat → RNode → List Nat → List Nat → List Nat → FindOut
  | 0, _, p, txt, nr => ⟨p, txt, nr⟩
  | fuel + 1, cur, p, txt, nr =>
    match txt with
    | [] => ⟨p, txt, nr⟩
    | c :: _ =>
      match radixTreeSonAt cur c with
      | none => ⟨p, txt, nr⟩
      | some child =>
        let r := radixTreeMoveTxt child txt
        if r.1 = [] then
          radixTreeFindGo fuel child (p ++ [radixTreeConvertCharToNumber c]) r.2 r.1
        else ⟨p ++ [radixTreeConvertCharToNumber c], r.2, r.1⟩

/-- The status computation at the end of `radixTreeFind`. -/
def radixTreeFindStatus (out : FindOut) : FindStatus :=
  if out.nodeRem = [] ∧ out.txtRem = [] then .found
  else if out.txtRem = [] then .substr
  else .notFound

/-- `radixTreeFind`: descend from the root (initial remaining label is
`stringEnd(root->txt)`, i.e. empty) and classify the stopping point. -/
def radixTreeFind (tree : RNode) (txt : List Nat) : FindStatus × FindOut :=
  let out := radixTreeFindGo txt.length tree [] txt []
  (radixTreeFindStatus out, out)

/-- `radixTreeFindLite`: `radixTreeFind` with the two remainder out-parameters
discarded. -/
def radixTreeFindLite (tree : RNode) (txt : List Nat) : FindStatus × List Nat :=
  let r := radixTreeFind tree txt
  (r.1, r.2.node)

/-- The node of a tree reached by following the given child-array indices. -/
def nodeAt : RNode → List Nat → Option RNode
  | n, [] => some n
  | n, c :: p =>
    match radixTreeSonAt n c with
    | none => none
    | some ch => nodeAt ch p

/-- Rewrite the subtree at the given path with `f` (the functional counterpart
of in-place mutation of the node `f` is applied to); an invalid path leaves the
tree unchanged (unreachable under the claims' hypotheses). -/
def updateAt : RNode → List Nat → (RNode → RNode) → RNode
  | n, [], f => f n
  | n, c :: p, f =>
    match radixTreeSonAt n c with
    | none => n
    | some ch => radixTreeChangeSon n c (some (updateAt ch p f))

/-- The concatenation of the labels along a path (the full key the reached
node represents); the spec-level reading of `radixGetFullText`. -/
def pathKey : RNode → List Nat → List Nat
  | _, [] => []
  | n, c :: p =>
    match radixTreeSonAt n c with
    | none => []
    | some ch => ch.txt ++ pathKey ch p

/-- The node-local transformation performed by `radixTreeSplitNode` on the node
being split, `k` symbols into its label: a new node (fresh, payload-less) takes
the matched prefix `txt.take k` and the original node, its label cut down to
the remainder `txt.drop k`, is re-attached under it in the slot indexed by the
remainder's first symbol. -/
def radixTreeSplitTransform (k : Nat) (n : RNode) : RNode :=
  radixTreeChangeSon (RNode.mk (n.txt.take k) none emptySons)
    ((n.txt.drop k).headD 0)
    (some (RNode.mk (n.txt.drop k) n.data n.sons))

/-- `radixTreeSplitNode` on the node at path `p`, splitting `k` symbols into
its label (`k` is `splitPtr - node->txt`).  Three allocations (the new node and
the two replacement label buffers) are attempted, in source order, before any
structure is modified; any failure frees what was allocated and reports
failure, leaving the tree untouched. -/
def radixTreeSplitNode (plan : List Bool) (t : RNode) (p : List Nat) (k : Nat) :
    List Bool × Option RNode :=
  let r1 := allocStep plan
  if !r1.1 then (r1.2, none)
  else
    let r2 := allocStep r1.2
    if !r2.1 then (r2.2, none)
    else
      let r3 := allocStep r2.2
      if !r3.1 then (r3.2, none)
      else (r3.2, some (updateAt t p (radixTreeSplitTransform k)))

/-- `radixTreeInsertLeaf`: hang a fresh leaf holding the unmatched key
remainder `txt` under the node at `p`, in the slot indexed by the remainder's
first symbol.  Two allocations (the copied label, then the node). -/
def radixTreeInsertLeaf (plan : List Bool) (t : RNode) (p : List Nat)
    (txt : List Nat) : List Bool × Option (RNode × List Nat) :=
  let r1 := allocStep plan
  if !r1.1 then (r1.2, none)
  else
    let r2 := allocStep r1.2
    if !r2.1 then (r2.2, none)
    else
      (r2.2, some
        (updateAt t p (fun n =>
          radixTreeChangeSon n (txt.headD 0) (some (RNode.mk txt none emptySons))),
         p ++ [radixTreeConvertCharToNumber (txt.headD 0)]))

/-- The matched length `nodeMatchPtr - node->txt` recovered from a find
outcome: the length of the reached node's label minus the unmatched
remainder. -/
def radixTreeSplitPoint (t : RNode) (out : FindOut) : Nat :=
  match nodeAt t out.node with
  | some n => n.txt.length - out.nodeRem.length
  | none => 0

/-- The body of `radixTreeInsert`, with explicit fuel for its self-call (the
mismatch-mid-label case splits and retries the whole insertion; claim C8 is
that one retry always suffices on well-formed trees).  Returns the rewritten
tree together with the access path of the node representing the key, or `none`
on allocation failure (the caller's tree is then unchanged, as in the C). -/
def radixTreeInsertFuel : Nat → List Bool → RNode → List Nat →
    List Bool × Option (RNode × List Nat)
  | 0, plan, _, _ => (plan, none)
  | fuel + 1, plan, tree, txt =>
    let fr := radixTreeFind tree txt
    match fr.1 with
    | .found => (plan, some (tree, fr.2.node))
    | .substr =>
      match radixTreeSplitNode plan tree fr.2.node (radixTreeSplitPoint tree fr.2) with
      | (pl, none) => (pl, none)
      | (pl, some t') => (pl, some (t', fr.2.node))
    | .notFound =>
      if fr.2.nodeRem ≠ [] then
        match radixTreeSplitNode plan tree fr.2.node (radixTreeSplitPoint tree fr.2) with
        | (pl, none) => (pl, none)
        | (pl, some t') => radixTreeInsertFuel fuel pl t' txt
      else radixTreeInsertLeaf plan tree fr.2.node fr.2.txtRem

/-- `radixTreeInsert` (fuel `txt.length + 2` is far more than the single retry
the algorithm can need; claim C8 shows any fuel of at least 2 gives the same
result on well-formed trees). -/
def radixTreeInsert (plan : List Bool) (tree : RNode) (txt : List Nat) :
    List Bool × Option (RNode × List Nat) :=
  radixTreeInsertFuel (txt.length + 2) plan tree txt

/-- `radixTreeGetNodeData` for the node at path `p`. -/
def radixTreeGetNodeData (t : RNode) (p : List Nat) : Option Nat :=
  match nodeAt t p with
  | some n => n.data
  | none => none

/-- `radixTreeSetData` on the node at path `p`. -/
def radixTreeSetData (t : RNode) (p : List Nat) (ptr : Option Nat) : RNode :=
  updateAt t p (fun n => RNode.mk n.txt ptr n.sons)

/-- The ascent of `radixGetFullText`: walk `father` pointers from the node at
`p`, prepending each non-root label, stopping at the first node recognised as
the root.  Fuel `p.length + 1` covers every well-formed tree. -/
def radixGetFullTextGo : Nat → RNode → List Nat → List Nat
  | 0, _, _ => []
  | fuel + 1, t, p =>
    match nodeAt t p with
    | none => []
    | some n =>
      if radixTreeIsRoot n then []
      else radixGetFullTextGo fuel t p.dropLast ++ n.txt

/-- `radixGetFullText` (the spec's `reconstructKey`): one allocation for the
result buffer, then the bottom-up label concatenation. -/
def radixGetFullText (plan : List Bool) (t : RNode) (p : List Nat) :
    List Bool × Option (List Nat) :=
  let r := allocStep plan
  if !r.1 then (r.2, none)
  else (r.2, some (radixGetFullTextGo (p.length + 1) t p))

/-- `radixTreeMerge tmp (firstSon tmp)` acting on the tree: the payload-less
single-child node at path `p` is absorbed into its only child `b`, which gets
the freshly allocated concatenated label `a.txt ++ b.txt` and takes `a`'s place
under `a`'s former father (the slot indexed by the concatenation's first
symbol, which is `a`'s first symbol).  One allocation; on failure the tree is
untouched.

The C function reaches the end of its non-void body without a `return` on this
success path (`radix_tree.c:372-396`) — undefined behaviour, observed by
`radixTreeBalance`, and recorded as a code bug under claim C6.  The embedding
models the documented contract: success is reported as success. -/
def radixTreeMerge (plan : List Bool) (t : RNode) (p : List Nat) :
    List Bool × Option RNode :=
  match nodeAt t p with
  | none => (plan, none)
  | some a =>
    match radixTreeFristSon a with
    | none => (plan, none)
    | some b =>
      let r := allocStep plan
      if !r.1 then (r.2, none)
      else (r.2, some (updateAt t p (fun _ => RNode.mk (a.txt ++ b.txt) b.data b.sons)))

/-- The step budget `canSkip` of `radixTreeBalance`. -/
def radixTreeCanSkip : Nat := 5

/-- The climbing loop of `radixTreeBalance`, with explicit fuel (each
iteration moves to the father, so `p.length + 1` fuel always suffices).
While the current node is not recognised as the root and `skipped ≤ canSkip`:
a redundant node (payload-less, childless) is detached and freed without
consuming budget; a mergeable node (payload-less, single child) is merged into
its child — on allocation failure the merge is abandoned and one budget step
is consumed; any other node costs one budget step; in every case the loop
continues from the former father. -/
def radixTreeBalanceGo : Nat → List Bool → RNode → List Nat → Nat →
    List Bool × RNode
  | 0, plan, t, _, _ => (plan, t)
  | fuel + 1, plan, t, p, skipped =>
    match nodeAt t p with
    | none => (plan, t)
    | some n =>
      if radixTreeIsRoot n ∨ radixTreeCanSkip < skipped then (plan, t)
      else
        match p with
        | [] => (plan, t)
        | _ :: _ =>
          if radixTreeIsNodeRedundant n then
            radixTreeBalanceGo fuel plan
              (updateAt t p.dropLast
                (fun fa => radixTreeChangeSon fa (n.txt.headD 0) none))
              p.dropLast skipped
          else if radixTreeCanBeMergedWithSon n then
            match radixTreeMerge plan t p with
            | (pl, none) => radixTreeBalanceGo fuel pl t p.dropLast (skipped + 1)
            | (pl, some t') => radixTreeBalanceGo fuel pl t' p.dropLast skipped
          else radixTreeBalanceGo fuel plan t p.dropLast (skipped + 1)

/-- `radixTreeBalance` on the node at path `p`. -/
def radixTreeBalance (plan : List Bool) (t : RNode) (p : List Nat) :
    List Bool × RNode :=
  radixTreeBalanceGo (p.length + 1) plan t p 0

/-- The state of the iterative teardown loop of `radixTreeDeleteSubTree`: the
current node `pos`, its resumption index `pos->foldI`, the chain of ancestors
up to the subtree root each with its own saved resumption index (this stack is
exactly the `foldI` fields the C stores inside the not-yet-freed ancestor
nodes), and the payloads handed to the finalizer so far, in call order. -/
structure DelState where
  pos : RNode
  fold : Nat
  stack : List (RNode × Nat)
  out : List Nat
deriving DecidableEq

/-- One iteration of the teardown loop.  With the node fully explored
(`foldI == RADIX_TREE_NUMBER_OF_SONS`): finalize its payload if any, clear its
slot in the father (indexed by the label's first symbol) and free it, resuming
in the father; the loop has ended when the stack is empty (the state is then
returned unchanged).  Otherwise examine child slot `foldI`: descend into a
present child (saving `foldI + 1` for the return) or merely advance the
index. -/
def radixTreeDelStep (s : DelState) : DelState :=
  if s.fold = RADIX_TREE_NUMBER_OF_SONS then
    match s.stack with
    | [] => s
    | (par, j) :: st =>
      { pos := radixTreeChangeSon par (s.pos.txt.headD 0) none
        fold := j
        stack := st
        out := s.out ++ s.pos.data.toList }
  else
    match Sons.get s.pos.sons s.fold with
    | some c => { pos := c, fold := 0, stack := (s.pos, s.fold + 1) :: s.stack, out := s.out }
    | none => { s with fold := s.fold + 1 }

/-- Iterate the teardown loop a given number of times. -/
def radixTreeDelRun : Nat → DelState → DelState
  | 0, s => s
  | fuel + 1, s => radixTreeDelRun fuel (radixTreeDelStep s)

mutual

/-- The exact number of loop iterations the teardown needs to bring a node
from resumption index 0 to `RADIX_TREE_NUMBER_OF_SONS`: one per examined
slot plus, per present child, its own full cost and its pop step. -/
def RNode.delSteps : RNode → Nat
  | .mk _ _ s => Sons.delSteps s

def Sons.delSteps : Sons → Nat
  | .nil => 0
  | .cons none tl => 1 + Sons.delSteps tl
  | .cons (some c) tl => 1 + (RNode.delSteps c + 1) + Sons.delSteps tl

end

mutual

/-- The payloads of a subtree in post-order: slots `0..9` left to right, each
child's payloads (recursively) before anything of later slots, the node's own
payload last.  This is the order and multiplicity in which the teardown hands
payloads to the finalizer. -/
def RNode.postPayloads : RNode → List Nat
  | .mk _ d s => Sons.postPayloads s ++ d.toList

def Sons.postPayloads : Sons → List Nat
  | .nil => []
  | .cons none tl => Sons.postPayloads tl
  | .cons (some c) tl => RNode.postPayloads c ++ Sons.postPayloads tl

end

/-- `radixTreeDeleteSubTree` on the node at path `p`: run the iterative loop
over the subtree (it touches nothing outside the subtree, which is then
discarded wholesale), finalize the subtree root's own payload, and — unless
the subtree root is the tree root — clear its slot in its father.  The result
is the remaining tree (`none` when the whole tree was destroyed, cf.
`radixTreeDelete`) and the finalized payloads in call order. -/
def radixTreeDeleteSubTree (t : RNode) (p : List Nat) :
    Option RNode × List Nat :=
  match nodeAt t p with
  | none => (some t, [])
  | some n =>
    let final := radixTreeDelRun (RNode.delSteps n) ⟨n, 0, [], []⟩
    let outs := final.out ++ n.data.toList
    if radixTreeIsRoot n then (none, outs)
    else
      (some (updateAt t p.dropLast
        (fun fa => radixTreeChangeSon fa (n.txt.headD 0) none)), outs)

/-- `radixTreeDelete`: whole-tree teardown is subtree teardown at the root. -/
def radixTreeDelete (t : RNode) : Option RNode × List Nat :=
  radixTreeDeleteSubTree t []

/-- A symbol of the supported digit alphabet. -/
def validSym (c : Nat) : Bool :=
  decide (c < RADIX_TREE_NUMBER_OF_SONS)

mutual

/-- Well-formedness of a node's subtree: the child array has exactly
`RADIX_TREE_NUMBER_OF_SONS` slots and every present child sits in the slot
indexed by the first symbol of its non-empty, all-digit label (spec §3's trie
invariants), recursively. -/
def wfNode : RNode → Bool
  | .mk _ _ s => decide (Sons.len s = RADIX_TREE_NUMBER_OF_SONS) && wfSons 0 s

/-- Well-formedness of the child slots from absolute index `i` on. -/
def wfSons : Nat → Sons → Bool
  | _, .nil => true
  | i, .cons none tl => wfSons (i + 1) tl
  | i, .cons (some c) tl =>
    (decide (c.txt ≠ []) && decide (c.txt.headD 0 = i) && c.txt.all validSym &&
      wfNode c) && wfSons (i + 1) tl

end

/-- Well-formedness of a whole tree: the root carries the sentinel label and
every node satisfies the structural invariants. -/
def wfTree (t : RNode) : Bool :=
  radixTreeIsRoot t && wfNode t

mutual

/-- The number of nodes of a subtree. -/
def RNode.nodeCount : RNode → Nat
  | .mk _ _ s => 1 + Sons.nodeCount s

def Sons.nodeCount : Sons → Nat
  | .nil => 0
  | .cons none tl => Sons.nodeCount tl
  | .cons (some c) tl => RNode.nodeCount c + Sons.nodeCount tl

end

/-- `K` is a key the tree holds a node for (the root-to-node label
concatenation of some node equals `K`). -/
def KeyIn (t : RNode) (K : List Nat) : Prop :=
  ∃ p n, nodeAt t p = some n ∧ pathKey t p = K

/-- Fold a list of insertions over a tree, each step keeping the rewritten
tree of a successful insertion (with the all-successful allocation plan the
failure branch is dead, as proved below). -/
def insertList : RNode → List (List Nat) → RNode
  | t, [] => t
  | t, K :: ks =>
    match radixTreeInsert [] t K with
    | (_, some (t', _)) => insertList t' ks
    | (_, none) => insertList t ks

/-- A concrete one-key tree (holding only the key 12), used by witnesses. -/
def exTree12 : RNode :=
  radixTreeChangeSon radixTreeCreate 1 (some (RNode.mk [1, 2] none emptySons))

/-- `exTree12` after its node is split one symbol into its label, as the
mismatching search for 13 triggers. -/
def exTree12split : RNode :=
  radixTreeChangeSon radixTreeCreate 1
    (some (radixTreeChangeSon (RNode.mk [1] none emptySons) 2
      (some (RNode.mk [2] none emptySons))))

/-- The child-array suffix from slot `j` on (used to reason about the
teardown loop's resumption index). -/
def Sons.dropS : Sons → Nat → Sons
  | s, 0 => s
  | .nil, _ + 1 => .nil
  | .cons _ tl, j + 1 => Sons.dropS tl j

/-- A concrete tree whose key 12 (holding payload 7) is represented by a node
labelled 2 under a payload-less single-child structural node labelled 1 —
the configuration the compaction claims are exercised on. -/
def exTreeBal : RNode :=
  radixTreeChangeSon radixTreeCreate 1
    (some (radixTreeChangeSon (RNode.mk [1] none emptySons) 2
      (some (RNode.mk [2] (some 7) emptySons))))

@[simp]
theorem RNode.txt_mk (t : List Nat) (d : Option Nat) (s : Sons) :
    (RNode.mk t d s).txt = t := rfl

@[simp]
theorem RNode.data_mk (t : List Nat) (d : Option Nat) (s : Sons) :
    (RNode.mk t d s).data = d := rfl

@[simp]
theorem RNode.sons_mk (t : List Nat) (d : Option Nat) (s : Sons) :
    (RNode.mk t d s).sons = s := rfl

theorem RNode.eta : ∀ n : RNode, RNode.mk n.txt n.data n.sons = n
  | .mk _ _ _ => rfl

theorem Sons.get_set_self : ∀ (s : Sons) (i : Nat) (v : Option RNode),
    i < s.len → Sons.get (Sons.set s i v) i = v
  | .nil, i, v => by simp [Sons.len]
  | .cons hd tl, 0, v => by intro h; simp [Sons.set, Sons.get]
  | .cons hd tl, i + 1, v => by
    intro h
    simp only [Sons.set, Sons.get]
    exact Sons.get_set_self tl i v (by
      have : i + 1 < Sons.len tl + 1 := by simpa [Sons.len] using h
      omega)

theorem Sons.get_set_of_ne : ∀ (s : Sons) (i j : Nat) (v : Option RNode),
    i ≠ j → Sons.get (Sons.set s i v) j = Sons.get s j
  | .nil, _, _, _ => by simp [Sons.set]
  | .cons hd tl, 0, 0, v => by intro h; exact absurd rfl h
  | .cons hd tl, 0, j + 1, v => by intro _; simp [Sons.set, Sons.get]
  | .cons hd tl, i + 1, 0, v => by intro _; simp [Sons.set, Sons.get]
  | .cons hd tl, i + 1, j + 1, v => by
    intro h
    simp only [Sons.set, Sons.get]
    exact Sons.get_set_of_ne tl i j v (by omega)

theorem Sons.len_set : ∀ (s : Sons) (i : Nat) (v : Option RNode),
    (Sons.set s i v).len = s.len
  | .nil, _, _ => rfl
  | .cons hd tl, 0, v => rfl
  | .cons hd tl, i + 1, v => by
    simp [Sons.set, Sons.len, Sons.len_set tl i v]

@[simp]
theorem Sons.get_blank : ∀ (n i : Nat), Sons.get (Sons.blank n) i = none
  | 0, _ => rfl
  | n + 1, 0 => rfl
  | n + 1, i + 1 => by simp [Sons.blank, Sons.get, Sons.get_blank n i]

@[simp]
theorem Sons.len_blank : ∀ n : Nat, (Sons.blank n).len = n
  | 0 => rfl
  | n + 1 => by simp [Sons.blank, Sons.len, Sons.len_blank n]

theorem Sons.get_none_of_len_le : ∀ (s : Sons) (i : Nat), s.len ≤ i →
    Sons.get s i = none
  | .nil, _, _ => rfl
  | .cons hd tl, 0, h => by simp [Sons.len] at h
  | .cons hd tl, i + 1, h => by
    simp only [Sons.get]
    exact Sons.get_none_of_len_le tl i (by simp [Sons.len] at h; omega)

theorem wfSons_get : ∀ (s : Sons) (i j : Nat) (c : RNode), wfSons i s = true →
    Sons.get s j = some c →
    c.txt ≠ [] ∧ c.txt.headD 0 = i + j ∧ c.txt.all validSym = true ∧ wfNode c = true
  | .nil, _, _, _, _, hg => by simp [Sons.get] at hg
  | .cons hd tl, i, 0, c, hw, hg => by
    simp only [Sons.get] at hg
    subst hg
    simp only [wfSons, Bool.and_eq_true, decide_eq_true_eq] at hw
    obtain ⟨⟨⟨⟨h1, h2⟩, h3⟩, h4⟩, _⟩ := hw
    exact ⟨h1, by simpa using h2, h3, h4⟩
  | .cons hd tl, i, j + 1, c, hw, hg => by
    simp only [Sons.get] at hg
    have hw' : wfSons (i + 1) tl = true := by
      cases hd with
      | none => simpa [wfSons] using hw
      | some c0 =>
        simp only [wfSons, Bool.and_eq_true] at hw
        exact hw.2
    have h := wfSons_get tl (i + 1) j c hw' hg
    exact ⟨h.1, by have := h.2.1; omega, h.2.2⟩

theorem wfNode_son {n c : RNode} {s : Nat} (hw : wfNode n = true)
    (hg : radixTreeSonAt n s = some c) :
    c.txt ≠ [] ∧ c.txt.headD 0 = s ∧ c.txt.all validSym = true ∧ wfNode c = true := by
  cases n with
  | mk t d sons =>
    simp only [wfNode, Bool.and_eq_true] at hw
    have := wfSons_get sons 0 s c hw.2 (by simpa [radixTreeSonAt, radixTreeConvertCharToNumber] using hg)
    simpa using this

theorem wfNode_len {n : RNode} (hw : wfNode n = true) :
    n.sons.len = RADIX_TREE_NUMBER_OF_SONS := by
  cases n with
  | mk t d sons =>
    simp only [wfNode, Bool.and_eq_true, decide_eq_true_eq] at hw
    simpa using hw.1

theorem isRoot_eq_false_of_digits {c : RNode} (_h1 : c.txt ≠ [])
    (h2 : c.txt.all validSym = true) : radixTreeIsRoot c = false := by
  simp only [radixTreeIsRoot, decide_eq_false_iff_not, RADIX_TREE_ROOT_TXT,
    RADIX_TREE_NUMBER_OF_SONS]
  intro hc
  rw [hc] at h2
  simp [validSym, RADIX_TREE_NUMBER_OF_SONS] at h2

@[simp]
theorem nodeAt_nil (n : RNode) : nodeAt n [] = some n := rfl

theorem nodeAt_cons {n ch : RNode} {c : Nat} (hs : radixTreeSonAt n c = some ch)
    (p : List Nat) : nodeAt n (c :: p) = nodeAt ch p := by
  simp [nodeAt, hs]

theorem nodeAt_cons_none {n : RNode} {c : Nat} (hs : radixTreeSonAt n c = none)
    (p : List Nat) : nodeAt n (c :: p) = none := by
  simp [nodeAt, hs]

@[simp]
theorem pathKey_nil (n : RNode) : pathKey n [] = [] := rfl

theorem pathKey_cons {n ch : RNode} {c : Nat} (hs : radixTreeSonAt n c = some ch)
    (p : List Nat) : pathKey n (c :: p) = ch.txt ++ pathKey ch p := by
  simp [pathKey, hs]

@[simp]
theorem updateAt_nil (n : RNode) (f : RNode → RNode) : updateAt n [] f = f n := rfl

theorem updateAt_cons {n ch : RNode} {c : Nat} (hs : radixTreeSonAt n c = some ch)
    (p : List Nat) (f : RNode → RNode) :
    updateAt n (c :: p) f = radixTreeChangeSon n c (some (updateAt ch p f)) := by
  simp [updateAt, hs]

theorem updateAt_cons_none {n : RNode} {c : Nat} (hs : radixTreeSonAt n c = none)
    (p : List Nat) (f : RNode → RNode) : updateAt n (c :: p) f = n := by
  simp [updateAt, hs]

theorem nodeAt_cons_elim {n m : RNode} {c : Nat} {p : List Nat}
    (h : nodeAt n (c :: p) = some m) :
    ∃ ch, radixTreeSonAt n c = some ch ∧ nodeAt ch p = some m := by
  cases hs : radixTreeSonAt n c with
  | none => rw [nodeAt_cons_none hs] at h; exact absurd h (by simp)
  | some ch => exact ⟨ch, rfl, by rwa [nodeAt_cons hs] at h⟩

theorem nodeAt_append : ∀ (p : List Nat) (n : RNode) (q : List Nat),
    nodeAt n (p ++ q) = (nodeAt n p).bind (fun m => nodeAt m q)
  | [], n, q => by simp
  | c :: p, n, q => by
    cases hs : radixTreeSonAt n c with
    | none => simp [nodeAt_cons_none hs]
    | some ch =>
      rw [List.cons_append, nodeAt_cons hs, nodeAt_cons hs, nodeAt_append p ch q]

theorem pathKey_append : ∀ (p : List Nat) (n m : RNode) (q : List Nat),
    nodeAt n p = some m → pathKey n (p ++ q) = pathKey n p ++ pathKey m q
  | [], n, m, q, h => by
    simp only [nodeAt_nil, Option.some.injEq] at h
    subst h
    simp
  | c :: p, n, m, q, h => by
    obtain ⟨ch, hs, h⟩ := nodeAt_cons_elim h
    rw [List.cons_append, pathKey_cons hs, pathKey_cons hs,
      pathKey_append p ch m q h, List.append_assoc]

theorem wfNode_nodeAt : ∀ (p : List Nat) (t n : RNode), wfNode t = true →
    nodeAt t p = some n → wfNode n = true
  | [], t, n, hw, h => by
    simp only [nodeAt_nil, Option.some.injEq] at h
    exact h ▸ hw
  | c :: p, t, n, hw, h => by
    obtain ⟨ch, hs, h⟩ := nodeAt_cons_elim h
    exact wfNode_nodeAt p ch n (wfNode_son hw hs).2.2.2 h

theorem wfNode_nodeAt_last {t n : RNode} {q : List Nat} {c : Nat}
    (hw : wfNode t = true) (h : nodeAt t (q ++ [c]) = some n) :
    n.txt ≠ [] ∧ n.txt.headD 0 = c ∧ n.txt.all validSym = true ∧ wfNode n = true := by
  rw [nodeAt_append] at h
  cases hq : nodeAt t q with
  | none => rw [hq] at h; exact absurd h (by simp)
  | some m =>
    rw [hq, Option.some_bind] at h
    obtain ⟨ch, hs, h⟩ := nodeAt_cons_elim h
    simp only [nodeAt_nil, Option.some.injEq] at h
    cases h
    exact wfNode_son (wfNode_nodeAt q t m hw hq) hs

theorem updateAt_txt : ∀ (p : List Nat) (t : RNode) (f : RNode → RNode),
    p ≠ [] → (updateAt t p f).txt = t.txt
  | [], _, _, h => absurd rfl h
  | c :: p, t, f, _ => by
    cases hs : radixTreeSonAt t c with
    | none => rw [updateAt_cons_none hs]
    | some ch => rw [updateAt_cons hs]; rfl

theorem updateAt_data : ∀ (p : List Nat) (t : RNode) (f : RNode → RNode),
    p ≠ [] → (updateAt t p f).data = t.data
  | [], _, _, h => absurd rfl h
  | c :: p, t, f, _ => by
    cases hs : radixTreeSonAt t c with
    | none => rw [updateAt_cons_none hs]
    | some ch => rw [updateAt_cons hs]; rfl

theorem sonAt_changeSon_self {n : RNode} {c : Nat} (v : Option RNode)
    (hc : c < n.sons.len) :
    radixTreeSonAt (radixTreeChangeSon n c v) c = v := by
  simp [radixTreeSonAt, radixTreeChangeSon, radixTreeConvertCharToNumber,
    Sons.get_set_self _ _ _ hc]

theorem sonAt_changeSon_ne {n : RNode} {c d : Nat} (v : Option RNode)
    (hcd : c ≠ d) :
    radixTreeSonAt (radixTreeChangeSon n c v) d = radixTreeSonAt n d := by
  simp [radixTreeSonAt, radixTreeChangeSon, radixTreeConvertCharToNumber,
    Sons.get_set_of_ne _ _ _ _ hcd]

theorem sonAt_lt_len {n ch : RNode} {c : Nat} (h : radixTreeSonAt n c = some ch) :
    c < n.sons.len := by
  by_contra hc
  rw [radixTreeSonAt, radixTreeConvertCharToNumber,
    Sons.get_none_of_len_le _ _ (by omega)] at h
  exact absurd h (by simp)

@[simp]
theorem changeSon_txt (n : RNode) (c : Nat) (v : Option RNode) :
    (radixTreeChangeSon n c v).txt = n.txt := rfl

@[simp]
theorem changeSon_data (n : RNode) (c : Nat) (v : Option RNode) :
    (radixTreeChangeSon n c v).data = n.data := rfl

theorem nodeAt_updateAt_append : ∀ (p : List Nat) (t n : RNode)
    (f : RNode → RNode) (q : List Nat), nodeAt t p = some n →
    nodeAt (updateAt t p f) (p ++ q) = nodeAt (f n) q
  | [], t, n, f, q, h => by
    simp only [nodeAt_nil, Option.some.injEq] at h
    subst h
    simp
  | c :: p, t, n, f, q, h => by
    obtain ⟨ch, hs, h⟩ := nodeAt_cons_elim h
    rw [updateAt_cons hs, List.cons_append,
      nodeAt_cons (sonAt_changeSon_self _ (sonAt_lt_len hs)),
      nodeAt_updateAt_append p ch n f q h]

theorem nodeAt_updateAt_under : ∀ (q : List Nat) (t m : RNode)
    (r : List Nat) (f : RNode → RNode), nodeAt t q = some m →
    nodeAt t (q ++ r) ≠ none →
    nodeAt (updateAt t (q ++ r) f) q = some (updateAt m r f)
  | [], t, m, r, f, hq, hv => by
    simp only [nodeAt_nil, Option.some.injEq] at hq
    subst hq
    simp
  | c :: q, t, m, r, f, hq, hv => by
    obtain ⟨ch, hs, hq⟩ := nodeAt_cons_elim hq
    have hv' : nodeAt ch (q ++ r) ≠ none := by
      rw [List.cons_append, nodeAt_cons hs] at hv
      exact hv
    rw [List.cons_append, updateAt_cons hs,
      nodeAt_cons (sonAt_changeSon_self _ (sonAt_lt_len hs)),
      nodeAt_updateAt_under q ch m r f hq hv']

theorem nodeAt_updateAt_diverge : ∀ (s : List Nat) (t : RNode) (a b : Nat)
    (p₀ q₀ : List Nat) (f : RNode → RNode), a ≠ b →
    nodeAt (updateAt t (s ++ a :: p₀) f) (s ++ b :: q₀) = nodeAt t (s ++ b :: q₀)
  | [], t, a, b, p₀, q₀, f, hab => by
    cases hs : radixTreeSonAt t a with
    | none => rw [List.nil_append, List.nil_append, updateAt_cons_none hs]
    | some ch =>
      rw [List.nil_append, List.nil_append, updateAt_cons hs]
      cases hb : radixTreeSonAt t b with
      | none =>
        rw [nodeAt_cons_none hb, nodeAt_cons_none (by rw [sonAt_changeSon_ne _ hab]; exact hb)]
      | some chb =>
        rw [nodeAt_cons hb, nodeAt_cons (by rw [sonAt_changeSon_ne _ hab]; exact hb)]
  | c :: s, t, a, b, p₀, q₀, f, hab => by
    cases hs : radixTreeSonAt t c with
    | none => rw [List.cons_append, List.cons_append, updateAt_cons_none hs]
    | some ch =>
      rw [List.cons_append, List.cons_append, updateAt_cons hs,
        nodeAt_cons (sonAt_changeSon_self _ (sonAt_lt_len hs)), nodeAt_cons hs,
        nodeAt_updateAt_diverge s ch a b p₀ q₀ f hab]

theorem pathKey_updateAt_diverge : ∀ (s : List Nat) (t : RNode) (a b : Nat)
    (p₀ q₀ : List Nat) (f : RNode → RNode), a ≠ b →
    pathKey (updateAt t (s ++ a :: p₀) f) (s ++ b :: q₀) = pathKey t (s ++ b :: q₀)
  | [], t, a, b, p₀, q₀, f, hab => by
    cases hs : radixTreeSonAt t a with
    | none => rw [List.nil_append, List.nil_append, updateAt_cons_none hs]
    | some ch =>
      rw [List.nil_append, List.nil_append, updateAt_cons hs]
      cases hb : radixTreeSonAt t b with
      | none =>
        rw [pathKey, pathKey]
        rw [sonAt_changeSon_ne _ hab, hb]
      | some chb =>
        rw [pathKey_cons hb, pathKey_cons (by rw [sonAt_changeSon_ne _ hab]; exact hb)]
  | c :: s, t, a, b, p₀, q₀, f, hab => by
    cases hs : radixTreeSonAt t c with
    | none => rw [List.cons_append, List.cons_append, updateAt_cons_none hs]
    | some ch =>
      rw [List.cons_append, List.cons_append, updateAt_cons hs,
        pathKey_cons (sonAt_changeSon_self _ (sonAt_lt_len hs)), pathKey_cons hs,
        updateAt_txt (s ++ a :: p₀) ch f (by simp),
        pathKey_updateAt_diverge s ch a b p₀ q₀ f hab]

theorem pathKey_updateAt_under : ∀ (q : List Nat) (t m : RNode) (r : List Nat)
    (f : RNode → RNode), r ≠ [] → nodeAt t q = some m →
    pathKey (updateAt t (q ++ r) f) q = pathKey t q
  | [], _, _, _, _, _, _ => by simp
  | c :: q, t, m, r, f, hr, hq => by
    obtain ⟨ch, hs, hq⟩ := nodeAt_cons_elim hq
    have hne : q ++ r ≠ [] := fun hc => hr (List.append_eq_nil.mp hc).2
    rw [List.cons_append, updateAt_cons hs,
      pathKey_cons (sonAt_changeSon_self _ (sonAt_lt_len hs)), pathKey_cons hs,
      updateAt_txt (q ++ r) ch f hne,
      pathKey_updateAt_under q ch m r f hr hq]

theorem pathKey_updateAt_self : ∀ (p : List Nat) (t n : RNode)
    (f : RNode → RNode), nodeAt t p = some n → p ≠ [] →
    ∃ base, pathKey t p = base ++ n.txt ∧
      pathKey (updateAt t p f) p = base ++ (f n).txt
  | [], _, _, _, _, hp => absurd rfl hp
  | [c], t, n, f, h, _ => by
    obtain ⟨ch, hs, h⟩ := nodeAt_cons_elim h
    simp only [nodeAt_nil, Option.some.injEq] at h
    cases h
    refine ⟨[], ?_, ?_⟩
    · rw [pathKey_cons hs]; simp
    · rw [updateAt_cons hs,
        pathKey_cons (sonAt_changeSon_self _ (sonAt_lt_len hs))]
      simp
  | c :: d :: p, t, n, f, h, _ => by
    obtain ⟨ch, hs, h⟩ := nodeAt_cons_elim h
    obtain ⟨base, hb1, hb2⟩ := pathKey_updateAt_self (d :: p) ch n f h (by simp)
    refine ⟨ch.txt ++ base, ?_, ?_⟩
    · rw [pathKey_cons hs, hb1, List.append_assoc]
    · rw [updateAt_cons hs,
        pathKey_cons (sonAt_changeSon_self _ (sonAt_lt_len hs)),
        updateAt_txt (d :: p) ch f (by simp), hb2, List.append_assoc]

theorem path_trichotomy : ∀ p q : List Nat,
    (∃ r, q = p ++ r) ∨ (∃ r, r ≠ [] ∧ p = q ++ r) ∨
      (∃ s a b p₀ q₀, a ≠ b ∧ p = s ++ a :: p₀ ∧ q = s ++ b :: q₀)
  | [], q => Or.inl ⟨q, by simp⟩
  | a :: p, [] => Or.inr (Or.inl ⟨a :: p, by simp, rfl⟩)
  | a :: p, b :: q => by
    by_cases hab : a = b
    · subst hab
      rcases path_trichotomy p q with ⟨r, hr⟩ | ⟨r, hr0, hr⟩ | ⟨s, x, y, p₀, q₀, hxy, hp, hq⟩
      · exact Or.inl ⟨r, by simp [hr]⟩
      · exact Or.inr (Or.inl ⟨r, hr0, by simp [hr]⟩)
      · exact Or.inr (Or.inr ⟨a :: s, x, y, p₀, q₀, hxy, by simp [hp], by simp [hq]⟩)
    · exact Or.inr (Or.inr ⟨[], a, b, p, q, hab, rfl, rfl⟩)

@[simp]
theorem matchTxt_nil_left (b : List Nat) : radixTreeMatchTxt [] b = ([], b) := rfl

@[simp]
theorem matchTxt_nil_right : ∀ a : List Nat, radixTreeMatchTxt a [] = (a, [])
  | [] => rfl
  | _ :: _ => rfl

theorem matchTxt_cons (i t : Nat) (is ts : List Nat) :
    radixTreeMatchTxt (i :: is) (t :: ts) =
      if i = t then radixTreeMatchTxt is ts else (i :: is, t :: ts) := rfl

theorem matchTxt_spec : ∀ a b : List Nat,
    ∃ X, a = X ++ (radixTreeMatchTxt a b).1 ∧ b = X ++ (radixTreeMatchTxt a b).2 ∧
      ((radixTreeMatchTxt a b).1 ≠ [] → (radixTreeMatchTxt a b).2 ≠ [] →
        (radixTreeMatchTxt a b).1.headD 0 ≠ (radixTreeMatchTxt a b).2.headD 0)
  | [], b => ⟨[], by simp⟩
  | i :: is, [] => ⟨[], by simp⟩
  | i :: is, t :: ts => by
    by_cases h : i = t
    · subst h
      obtain ⟨X, h1, h2, h3⟩ := matchTxt_spec is ts
      refine ⟨i :: X, ?_, ?_, ?_⟩
      · rw [matchTxt_cons, if_pos rfl, List.cons_append, ← h1]
      · rw [matchTxt_cons, if_pos rfl, List.cons_append, ← h2]
      · rw [matchTxt_cons, if_pos rfl]
        exact h3
    · refine ⟨[], ?_, ?_, ?_⟩
      · rw [matchTxt_cons, if_neg h, List.nil_append]
      · rw [matchTxt_cons, if_neg h, List.nil_append]
      · rw [matchTxt_cons, if_neg h]
        intro _ _
        simpa using h

theorem matchTxt_full : ∀ a b : List Nat, radixTreeMatchTxt a (a ++ b) = ([], b)
  | [], b => by simp
  | i :: is, b => by
    rw [List.cons_append, matchTxt_cons, if_pos rfl, matchTxt_full is b]

/-- On a well-formed subtree the descent loop consumes at least one key symbol
per iteration, so any fuel of at least the key length computes the same
outcome (length-bounded auxiliary form). -/
theorem findGo_fuel_aux : ∀ (L : Nat) (txt : List Nat), txt.length ≤ L →
    ∀ (cur : RNode) (q : List Nat) (f₁ f₂ : Nat), wfNode cur = true →
    txt.length ≤ f₁ → txt.length ≤ f₂ →
    radixTreeFindGo f₁ cur q txt [] = radixTreeFindGo f₂ cur q txt []
  | L, [], _, cur, q, f₁, f₂, _, _, _ => by
    cases f₁  <;> cases f₂  <;> rfl
  | 0, c :: ts, hL, _, _, _, _, _, _, _ => by simp at hL
  | L + 1, c :: ts, hL, cur, q, f₁, f₂, hwf, h₁, h₂ => by
    match f₁, f₂, h₁, h₂ with
    | f₁ + 1, f₂ + 1, h₁, h₂ =>
    simp only [radixTreeFindGo]
    cases hs : radixTreeSonAt cur c with
    | none => rfl
    | some child =>
      obtain ⟨hne, hhd, hdig, hwc⟩ := wfNode_son hwf hs
      have hroot : radixTreeIsRoot child = false := isRoot_eq_false_of_digits hne hdig
      simp only [radixTreeMoveTxt, hroot, Bool.false_eq_true, if_false]
      obtain ⟨X, hX1, hX2, hX3⟩ := matchTxt_spec child.txt (c :: ts)
      by_cases hrem : (radixTreeMatchTxt child.txt (c :: ts)).1 = []
      · simp only [hrem, if_true]
        have hXne : X ≠ [] := by
          intro hX
          apply hne
          rw [hX1, hX, hrem, List.nil_append]
        have hlen : (radixTreeMatchTxt child.txt (c :: ts)).2.length ≤ ts.length := by
          have hLn := congrArg List.length hX2
          simp only [List.length_cons, List.length_append] at hLn
          have hXpos : 0 < X.length := List.length_pos.mpr hXne
          omega
        simp only [List.length_cons] at h₁ h₂ hL
        exact findGo_fuel_aux L _ (by omega) child _ f₁ f₂ hwc (by omega) (by omega)
      · simp only [hrem, if_false]

/-- Fuel irrelevance for the find loop on well-formed subtrees. -/
theorem findGo_fuel {txt : List Nat} {cur : RNode} {q : List Nat} {f₁ f₂ : Nat}
    (hwf : wfNode cur = true) (h₁ : txt.length ≤ f₁) (h₂ : txt.length ≤ f₂) :
    radixTreeFindGo f₁ cur q txt [] = radixTreeFindGo f₂ cur q txt [] :=
  findGo_fuel_aux txt.length txt le_rfl cur q f₁ f₂ hwf h₁ h₂

/-- Descending along an existing path: searching for a key that extends the
full key of the node at `p` walks exactly to that node and continues from
there with the key remainder. -/
theorem findGo_descend : ∀ (p : List Nat) (cur n : RNode) (q rest : List Nat)
    (fuel : Nat), wfNode cur = true → nodeAt cur p = some n →
    (pathKey cur p ++ rest).length ≤ fuel →
    radixTreeFindGo fuel cur q (pathKey cur p ++ rest) [] =
      radixTreeFindGo rest.length n (q ++ p) rest []
  | [], cur, n, q, rest, fuel, hwf, hn, hf => by
    simp only [nodeAt_nil, Option.some.injEq] at hn
    subst hn
    rw [pathKey_nil, List.nil_append] at hf ⊢
    rw [List.append_nil]
    exact findGo_fuel hwf hf le_rfl
  | c :: p, cur, n, q, rest, fuel, hwf, hn, hf => by
    obtain ⟨ch, hs, hn⟩ := nodeAt_cons_elim hn
    obtain ⟨hne, hhd, hdig, hwc⟩ := wfNode_son hwf hs
    rw [pathKey_cons hs] at hf ⊢
    obtain ⟨cts, hct⟩ : ∃ cts, ch.txt = c :: cts := by
      cases hct : ch.txt with
      | nil => exact absurd hct hne
      | cons a b =>
        rw [hct] at hhd
        simp only [List.headD_cons] at hhd
        subst hhd
        exact ⟨b, by simp [hct]⟩
    match fuel, hf with
    | 0, hf =>
      rw [hct] at hf
      simp at hf
    | fuel + 1, hf =>
      rw [hct, List.append_assoc, List.cons_append]
      simp only [radixTreeFindGo, hs]
      have hroot : radixTreeIsRoot ch = false := isRoot_eq_false_of_digits hne hdig
      simp only [radixTreeMoveTxt, hroot, Bool.false_eq_true, if_false]
      rw [← List.cons_append, ← hct, matchTxt_full]
      simp only [if_true]
      have hlen : (pathKey ch p ++ rest).length ≤ fuel := by
        rw [hct] at hf
        simp only [List.cons_append, List.length_cons, List.length_append] at hf ⊢
        omega
      rw [findGo_descend p ch n (q ++ [radixTreeConvertCharToNumber c]) rest fuel
        hwc hn hlen]
      simp [radixTreeConvertCharToNumber]

/-- The full characterization of the find loop on a well-formed subtree:
it stops at a node of the tree, having matched a prefix `X` of the key that
is also a label-path prefix ending inside (or at the end of) that node's
label; the three stopping situations carry the mid-label-mismatch /
missing-child evidence. -/
theorem findGo_spec : ∀ (L : Nat) (txt : List Nat), txt.length ≤ L →
    ∀ (cur : RNode) (q : List Nat) (fuel : Nat), wfNode cur = true →
    txt.length ≤ fuel →
    ∃ p n X trem nrem,
      radixTreeFindGo fuel cur q txt [] = ⟨q ++ p, trem, nrem⟩ ∧
      nodeAt cur p = some n ∧
      pathKey cur p = X ++ nrem ∧
      txt = X ++ trem ∧
      (nrem ≠ [] → ∃ Y, Y ≠ [] ∧ n.txt = Y ++ nrem) ∧
      (p = [] → nrem = []) ∧
      (trem ≠ [] → nrem ≠ [] → nrem.headD 0 ≠ trem.headD 0) ∧
      (trem ≠ [] → nrem = [] → radixTreeSonAt n (trem.headD 0) = none)
  | L, [], _, cur, q, fuel, hwf, hfuel => by
    refine ⟨[], cur, [], [], [], ?_, by simp, by simp, by simp, by simp, by simp,
      by simp, by simp⟩
    cases fuel  <;> simp [radixTreeFindGo]
  | 0, c :: ts, hL, _, _, _, _, _ => by simp at hL
  | L + 1, c :: ts, hL, cur, q, fuel, hwf, hfuel => by
    match fuel, hfuel with
    | fuel + 1, hfuel =>
    cases hs : radixTreeSonAt cur c with
    | none =>
      refine ⟨[], cur, [], c :: ts, [], ?_, by simp, by simp, by simp, by simp,
        by simp, by simp, ?_⟩
      · simp [radixTreeFindGo, hs]
      · intro _ _
        simpa using hs
    | some child =>
      obtain ⟨hne, hhd, hdig, hwc⟩ := wfNode_son hwf hs
      have hroot : radixTreeIsRoot child = false := isRoot_eq_false_of_digits hne hdig
      obtain ⟨X₀, hX1, hX2, hX3⟩ := matchTxt_spec child.txt (c :: ts)
      by_cases hrem : (radixTreeMatchTxt child.txt (c :: ts)).1 = []
      · -- full label match: the loop continues inside the child
        have hX₀ : X₀ = child.txt := by rw [hX1, hrem, List.append_nil]
        have hlen : (radixTreeMatchTxt child.txt (c :: ts)).2.length ≤ ts.length := by
          have hLn := congrArg List.length hX2
          simp only [List.length_cons, List.length_append] at hLn
          have : 0 < X₀.length := List.length_pos.mpr (hX₀ ▸ hne)
          omega
        simp only [List.length_cons] at hL hfuel
        obtain ⟨p', n, X', trem, nrem, ih1, ih2, ih3, ih4, ih5, ih6, ih7, ih8⟩ :=
          findGo_spec L (radixTreeMatchTxt child.txt (c :: ts)).2 (by omega) child
            (q ++ [radixTreeConvertCharToNumber c]) fuel hwc (by omega)
        refine ⟨c :: p', n, child.txt ++ X', trem, nrem, ?_, ?_, ?_, ?_, ?_,
          by simp, ih7, ih8⟩
        · simp only [radixTreeFindGo, hs, radixTreeMoveTxt, hroot,
            Bool.false_eq_true, if_false, hrem, if_true]
          rw [ih1]
          simp [radixTreeConvertCharToNumber]
        · rw [nodeAt_cons hs]; exact ih2
        · rw [pathKey_cons hs, ih3, List.append_assoc]
        · rw [hX2, hX₀, ih4, List.append_assoc]
        · intro h
          obtain ⟨Y, hY1, hY2⟩ := ih5 h
          exact ⟨Y, hY1, hY2⟩
      · -- mid-label stop at the child
        refine ⟨[c], child, X₀, (radixTreeMatchTxt child.txt (c :: ts)).2,
          (radixTreeMatchTxt child.txt (c :: ts)).1, ?_, ?_, ?_, hX2, ?_, by simp,
          ?_, ?_⟩
        · simp only [radixTreeFindGo, hs, radixTreeMoveTxt, hroot,
            Bool.false_eq_true, if_false, hrem, if_false]
          simp [radixTreeConvertCharToNumber]
        · rw [nodeAt_cons hs, nodeAt_nil]
        · rw [pathKey_cons hs, pathKey_nil, List.append_nil]
          exact hX1
        · intro _
          refine ⟨X₀, ?_, hX1⟩
          intro hX₀
          subst hX₀
          rw [List.nil_append] at hX1 hX2
          have hmain := hX3 hrem (by rw [← hX2]; simp)
          apply hmain
          rw [← hX1, ← hX2, hhd]
          simp
        · intro h1 h2
          exact hX3 h2 h1
        · intro _ h2
          exact absurd h2 hrem

theorem wfNode_of_wfTree {t : RNode} (h : wfTree t = true) : wfNode t = true := by
  simp only [wfTree, Bool.and_eq_true] at h
  exact h.2

theorem isRoot_of_wfTree {t : RNode} (h : wfTree t = true) :
    radixTreeIsRoot t = true := by
  simp only [wfTree, Bool.and_eq_true] at h
  exact h.1

/-- Completeness of `radixTreeFind`: any key some node of a well-formed tree
represents is reported Found, at exactly that node, with both remainders
empty. -/
theorem find_found {t n : RNode} {p K : List Nat} (hw : wfTree t = true)
    (hn : nodeAt t p = some n) (hk : pathKey t p = K) :
    radixTreeFind t K = (.found, ⟨p, [], []⟩) := by
  have hwf : wfNode t = true := wfNode_of_wfTree hw
  have h := findGo_descend p t n [] [] K.length hwf hn (by simp [hk])
  rw [List.append_nil, hk] at h
  have h0 : radixTreeFindGo ([] : List Nat).length n ([] ++ p) [] [] = ⟨p, [], []⟩ := by
    simp [radixTreeFindGo]
  rw [h0] at h
  simp [radixTreeFind, h, radixTreeFindStatus]

/-- Completeness of the missing-child outcome: if the key extends the full key
of a node whose slot for the next symbol is empty, find stops exactly there
with `NOT_FOUND`, an empty label remainder and the key remainder. -/
theorem find_missing {t n : RNode} {p X rest K : List Nat} (hw : wfTree t = true)
    (hn : nodeAt t p = some n) (hk : pathKey t p = X) (hK : K = X ++ rest)
    (hrest : rest ≠ []) (hmiss : radixTreeSonAt n (rest.headD 0) = none) :
    radixTreeFind t K = (.notFound, ⟨p, rest, []⟩) := by
  subst hK
  have hwf : wfNode t = true := wfNode_of_wfTree hw
  have h := findGo_descend p t n [] rest (X ++ rest).length hwf hn (by rw [hk])
  rw [hk] at h
  cases rest with
  | nil => exact absurd rfl hrest
  | cons r rs =>
    have h0 : radixTreeFindGo (r :: rs).length n ([] ++ p) (r :: rs) [] =
        ⟨p, r :: rs, []⟩ := by
      have : radixTreeSonAt n r = none := by simpa using hmiss
      simp [radixTreeFindGo, this]
    rw [h0] at h
    simp only [radixTreeFind, h, radixTreeFindStatus]
    simp

theorem wfSons_blank : ∀ (n i : Nat), wfSons i (Sons.blank n) = true
  | 0, _ => rfl
  | n + 1, i => by simp [Sons.blank, wfSons, wfSons_blank n (i + 1)]

theorem wfSons_of_cons_some {c : RNode} {tl : Sons} {i : Nat}
    (h : wfSons i (Sons.cons (some c) tl) = true) : wfSons (i + 1) tl = true := by
  simp only [wfSons, Bool.and_eq_true] at h
  exact h.2

theorem wfSons_set_none : ∀ (s : Sons) (i j : Nat), wfSons i s = true →
    wfSons i (Sons.set s j none) = true
  | .nil, _, _, _ => rfl
  | .cons hd tl, i, 0, h => by
    cases hd with
    | none => simpa [Sons.set, wfSons] using h
    | some c => simpa [Sons.set, wfSons] using wfSons_of_cons_some h
  | .cons hd tl, i, j + 1, h => by
    cases hd with
    | none =>
      simp only [Sons.set, wfSons] at h ⊢
      exact wfSons_set_none tl (i + 1) j h
    | some c =>
      simp only [Sons.set, wfSons, Bool.and_eq_true] at h ⊢
      exact ⟨h.1, wfSons_set_none tl (i + 1) j h.2⟩

theorem wfSons_set_some : ∀ (s : Sons) (i j : Nat) (c : RNode), wfSons i s = true →
    c.txt ≠ [] → c.txt.headD 0 = i + j → c.txt.all validSym = true →
    wfNode c = true → wfSons i (Sons.set s j (some c)) = true
  | .nil, _, _, _, _, _, _, _, _ => rfl
  | .cons hd tl, i, 0, c, h, hc1, hc2, hc3, hc4 => by
    have htl : wfSons (i + 1) tl = true := by
      cases hd with
      | none => simpa [wfSons] using h
      | some c0 => exact wfSons_of_cons_some h
    simp only [Sons.set, wfSons, Bool.and_eq_true, decide_eq_true_eq]
    exact ⟨⟨⟨⟨hc1, by simpa using hc2⟩, hc3⟩, hc4⟩, htl⟩
  | .cons hd tl, i, j + 1, c, h, hc1, hc2, hc3, hc4 => by
    have hc2' : c.txt.headD 0 = (i + 1) + j := by omega
    cases hd with
    | none =>
      simp only [Sons.set, wfSons] at h ⊢
      exact wfSons_set_some tl (i + 1) j c h hc1 hc2' hc3 hc4
    | some c0 =>
      simp only [Sons.set, wfSons, Bool.and_eq_true] at h ⊢
      exact ⟨h.1, wfSons_set_some tl (i + 1) j c h.2 hc1 hc2' hc3 hc4⟩

theorem wfNode_changeSon_none {n : RNode} (hw : wfNode n = true) (j : Nat) :
    wfNode (radixTreeChangeSon n j none) = true := by
  cases n with
  | mk t d s =>
    simp only [radixTreeChangeSon, radixTreeConvertCharToNumber, RNode.sons_mk]
    simp only [wfNode, Bool.and_eq_true, decide_eq_true_eq] at hw ⊢
    exact ⟨by rw [Sons.len_set]; exact hw.1, wfSons_set_none s 0 j hw.2⟩

theorem wfNode_changeSon_some {n c : RNode} {j : Nat} (hw : wfNode n = true)
    (hc1 : c.txt ≠ []) (hc2 : c.txt.headD 0 = j) (hc3 : c.txt.all validSym = true)
    (hc4 : wfNode c = true) :
    wfNode (radixTreeChangeSon n j (some c)) = true := by
  cases n with
  | mk t d s =>
    simp only [radixTreeChangeSon, radixTreeConvertCharToNumber, RNode.sons_mk]
    simp only [wfNode, Bool.and_eq_true, decide_eq_true_eq] at hw ⊢
    exact ⟨by rw [Sons.len_set]; exact hw.1,
      wfSons_set_some s 0 j c hw.2 hc1 (by simpa using hc2) hc3 hc4⟩

/-- Rewriting the subtree at `p` preserves node-level well-formedness of the
whole tree, provided the new subtree is well formed and either keeps its label
or keeps a non-empty all-digit label with the same leading symbol. -/
theorem wfNode_updateAt : ∀ (p : List Nat) (t n : RNode) (f : RNode → RNode),
    wfNode t = true → nodeAt t p = some n → wfNode (f n) = true →
    ((f n).txt = n.txt ∨
      ((f n).txt ≠ [] ∧ (f n).txt.headD 0 = n.txt.headD 0 ∧
        (f n).txt.all validSym = true)) →
    wfNode (updateAt t p f) = true
  | [], t, n, f, _, hn, hf, _ => by
    simp only [nodeAt_nil, Option.some.injEq] at hn
    subst hn
    simpa using hf
  | c :: p, t, n, f, hw, hn, hf, htxt => by
    obtain ⟨ch, hs, hn⟩ := nodeAt_cons_elim hn
    obtain ⟨hne, hhd, hdig, hwc⟩ := wfNode_son hw hs
    rw [updateAt_cons hs]
    have hwu : wfNode (updateAt ch p f) = true :=
      wfNode_updateAt p ch n f hwc hn hf htxt
    cases p with
    | nil =>
      simp only [nodeAt_nil, Option.some.injEq] at hn
      subst hn
      simp only [updateAt_nil]
      rcases htxt with h | ⟨h1, h2, h3⟩
      · exact wfNode_changeSon_some hw (h ▸ hne) (h ▸ hhd) (h ▸ hdig)
          (by simpa using hwu)
      · exact wfNode_changeSon_some hw h1 (by rw [h2, hhd]) h3 (by simpa using hwu)
    | cons d p' =>
      have htxtu : (updateAt ch (d :: p') f).txt = ch.txt :=
        updateAt_txt (d :: p') ch f (by simp)
      exact wfNode_changeSon_some hw (htxtu ▸ hne) (htxtu ▸ hhd) (htxtu ▸ hdig) hwu

/-- `wfTree` version of `wfNode_updateAt`: the root keeps its sentinel label
whenever the path is non-empty (or the rewrite keeps the label). -/
theorem wfTree_updateAt {p : List Nat} {t n : RNode} {f : RNode → RNode}
    (hw : wfTree t = true) (hn : nodeAt t p = some n) (hf : wfNode (f n) = true)
    (htxt : (f n).txt = n.txt ∨
      (p ≠ [] ∧ (f n).txt ≠ [] ∧ (f n).txt.headD 0 = n.txt.headD 0 ∧
        (f n).txt.all validSym = true)) :
    wfTree (updateAt t p f) = true := by
  have hwn : wfNode (updateAt t p f) = true := by
    apply wfNode_updateAt p t n f (wfNode_of_wfTree hw) hn hf
    rcases htxt with h | ⟨_, h⟩
    · exact Or.inl h
    · exact Or.inr h
  simp only [wfTree, Bool.and_eq_true]
  refine ⟨?_, hwn⟩
  cases p with
  | nil =>
    simp only [nodeAt_nil, Option.some.injEq] at hn
    subst hn
    rcases htxt with h | ⟨hne, _⟩
    · simp only [updateAt_nil, radixTreeIsRoot, h]
      exact isRoot_of_wfTree hw
    · exact absurd rfl hne
  | cons c p' =>
    rw [radixTreeIsRoot, updateAt_txt (c :: p') t f (by simp)]
    exact isRoot_of_wfTree hw

theorem nodeAt_congr_sons {t1 t2 : List Nat} {d1 d2 : Option Nat} {s : Sons}
    (c : Nat) (r : List Nat) :
    nodeAt (RNode.mk t1 d1 s) (c :: r) = nodeAt (RNode.mk t2 d2 s) (c :: r) := by
  cases hs : radixTreeSonAt (RNode.mk t1 d1 s) c with
  | none =>
    rw [nodeAt_cons_none hs, nodeAt_cons_none (by simpa [radixTreeSonAt] using hs)]
  | some ch =>
    rw [nodeAt_cons hs, nodeAt_cons (show radixTreeSonAt (RNode.mk t2 d2 s) c = some ch
      by simpa [radixTreeSonAt] using hs)]

theorem pathKey_congr_sons {t1 t2 : List Nat} {d1 d2 : Option Nat} {s : Sons}
    (c : Nat) (r : List Nat) :
    pathKey (RNode.mk t1 d1 s) (c :: r) = pathKey (RNode.mk t2 d2 s) (c :: r) := by
  cases hs : radixTreeSonAt (RNode.mk t1 d1 s) c with
  | none =>
    have hs2 : radixTreeSonAt (RNode.mk t2 d2 s) c = none := by
      simpa [radixTreeSonAt] using hs
    simp [pathKey, hs, hs2]
  | some ch =>
    rw [pathKey_cons hs, pathKey_cons (show radixTreeSonAt (RNode.mk t2 d2 s) c = some ch
      by simpa [radixTreeSonAt] using hs)]

/-- Every key the tree holds survives rewriting the subtree at `p`, provided
the keys of the rewritten subtree (prefixed with its own possibly new label)
cover the keys of the old subtree. -/
theorem KeyIn_updateAt {t n : RNode} {p : List Nat} {f : RNode → RNode}
    (hn : nodeAt t p = some n)
    (hroot : p = [] → (f n).txt = n.txt)
    (hsub : ∀ r m, nodeAt n r = some m → ∃ r' m', nodeAt (f n) r' = some m' ∧
      (f n).txt ++ pathKey (f n) r' = n.txt ++ pathKey n r) :
    ∀ K, KeyIn t K → KeyIn (updateAt t p f) K := by
  rintro K ⟨q, m, hq, hk⟩
  rcases path_trichotomy p q with ⟨r, rfl⟩ | ⟨rr, hrr0, hpe⟩ |
    ⟨s, a, b, p₀, q₀, hab, hp, hq'⟩
  · -- q extends p: re-route through the rewritten subtree
    have hnr : nodeAt n r = some m := by
      rw [nodeAt_append, hn, Option.some_bind] at hq
      exact hq
    obtain ⟨r', m', hr1, hr2⟩ := hsub r m hnr
    refine ⟨p ++ r', m', ?_, ?_⟩
    · rw [nodeAt_updateAt_append p t n f r' hn]
      exact hr1
    · have hup : nodeAt (updateAt t p f) p = some (f n) := by
        have := nodeAt_updateAt_append p t n f [] hn
        simpa using this
      rw [pathKey_append p (updateAt t p f) (f n) r' hup]
      rw [pathKey_append p t n r hn] at hk
      by_cases hp0 : p = []
      · subst hp0
        have htxt := hroot rfl
        have hcan : pathKey (f n) r' = pathKey n r := by
          have h2 : n.txt ++ pathKey (f n) r' = n.txt ++ pathKey n r := by
            conv_lhs => rw [← htxt]
            exact hr2
          exact List.append_cancel_left h2
        simpa [hcan] using hk
      · obtain ⟨base, hb1, hb2⟩ := pathKey_updateAt_self p t n f hn hp0
        rw [hb2, List.append_assoc, hr2, ← List.append_assoc, ← hb1]
        exact hk
  · -- q is a proper ancestor of p: its node is rewritten below, key unchanged
    subst hpe
    refine ⟨q, updateAt m rr f, ?_, ?_⟩
    · exact nodeAt_updateAt_under q t m rr f hq (by rw [hn]; simp)
    · rw [pathKey_updateAt_under q t m rr f hrr0 hq]
      exact hk
  · -- q diverges from p: untouched
    subst hp
    subst hq'
    refine ⟨s ++ b :: q₀, m, ?_, ?_⟩
    · rw [nodeAt_updateAt_diverge s t a b p₀ q₀ f hab]
      exact hq
    · rw [pathKey_updateAt_diverge s t a b p₀ q₀ f hab]
      exact hk

theorem wfNode_leafNode (txt : List Nat) (d : Option Nat) :
    wfNode (RNode.mk txt d emptySons) = true := by
  simp [wfNode, emptySons, wfSons_blank, RADIX_TREE_NUMBER_OF_SONS]

theorem wf_node_digits {t n : RNode} {p : List Nat} (hw : wfTree t = true)
    (hn : nodeAt t p = some n) (hp : p ≠ []) :
    n.txt ≠ [] ∧ n.txt.all validSym = true := by
  obtain ⟨q, c, rfl⟩ : ∃ q c, p = q ++ [c] :=
    ⟨p.dropLast, p.getLast hp, (List.dropLast_append_getLast hp).symm⟩
  have h := wfNode_nodeAt_last (wfNode_of_wfTree hw) hn
  exact ⟨h.1, h.2.2.1⟩

/-- Everything `radixTreeInsertLeaf` guarantees with a failure-free allocation
plan: the new leaf hangs under the reached node in the slot of the remainder's
first symbol, represents `pathKey t p ++ rest`, the tree stays well-formed and
keeps every key it had. -/
theorem insertLeaf_spec {t n : RNode} {p rest : List Nat}
    (hw : wfTree t = true) (hn : nodeAt t p = some n) (hrest : rest ≠ [])
    (hdig : rest.all validSym = true)
    (hmiss : radixTreeSonAt n (rest.headD 0) = none) :
    ∃ t',
      radixTreeInsertLeaf [] t p rest = ([], some (t', p ++ [rest.headD 0])) ∧
      wfTree t' = true ∧
      nodeAt t' (p ++ [rest.headD 0]) = some (RNode.mk rest none emptySons) ∧
      pathKey t' (p ++ [rest.headD 0]) = pathKey t p ++ rest ∧
      (∀ K, KeyIn t K → KeyIn t' K) := by
  set leaf := RNode.mk rest none emptySons with hleaf
  set f : RNode → RNode :=
    fun m => radixTreeChangeSon m (rest.headD 0) (some leaf) with hfdef
  have hh10 : rest.headD 0 < RADIX_TREE_NUMBER_OF_SONS := by
    cases rest with
    | nil => exact absurd rfl hrest
    | cons r rs =>
      simp only [List.all_cons, Bool.and_eq_true] at hdig
      simpa [validSym] using hdig.1
  have hwleaf : wfNode leaf = true := wfNode_leafNode rest none
  have hfn : wfNode (f n) = true := by
    apply wfNode_changeSon_some (wfNode_nodeAt p t n (wfNode_of_wfTree hw) hn)
      (by simpa [hleaf] using hrest) (by simp [hleaf]) (by simpa [hleaf] using hdig)
      hwleaf
  have hlen : rest.headD 0 < n.sons.len := by
    rw [wfNode_len (wfNode_nodeAt p t n (wfNode_of_wfTree hw) hn)]
    exact hh10
  refine ⟨updateAt t p f, ?_, ?_, ?_, ?_, ?_⟩
  · simp [radixTreeInsertLeaf, allocStep, radixTreeConvertCharToNumber, hfdef, hleaf]
  · exact wfTree_updateAt hw hn hfn (Or.inl rfl)
  · rw [nodeAt_updateAt_append p t n f [rest.headD 0] hn]
    rw [nodeAt_cons (show radixTreeSonAt (f n) (rest.headD 0) = some leaf from
      sonAt_changeSon_self _ hlen)]
    simp
  · have hup : nodeAt (updateAt t p f) p = some (f n) := by
      have := nodeAt_updateAt_append p t n f [] hn
      simpa using this
    rw [pathKey_append p (updateAt t p f) (f n) [rest.headD 0] hup]
    rw [pathKey_cons (show radixTreeSonAt (f n) (rest.headD 0) = some leaf from
      sonAt_changeSon_self _ hlen)]
    have hsame : pathKey (updateAt t p f) p = pathKey t p := by
      by_cases hp0 : p = []
      · subst hp0; simp
      · obtain ⟨base, hb1, hb2⟩ := pathKey_updateAt_self p t n f hn hp0
        rw [hb2, hb1]
        simp [hfdef]
    rw [hsame]
    simp [hleaf]
  · apply KeyIn_updateAt hn (fun _ => by simp [hfdef])
    intro r m hr
    cases r with
    | nil =>
      refine ⟨[], f n, by simp, ?_⟩
      simp only [nodeAt_nil, Option.some.injEq] at hr
      simp [hfdef]
    | cons r₀ rs =>
      obtain ⟨c, hc, hr'⟩ := nodeAt_cons_elim hr
      have hr₀ : r₀ ≠ rest.headD 0 := by
        intro hEq
        rw [hEq, hmiss] at hc
        exact absurd hc (by simp)
      refine ⟨r₀ :: rs, m, ?_, ?_⟩
      · rw [nodeAt_cons (show radixTreeSonAt (f n) r₀ = some c by
          rw [hfdef, sonAt_changeSon_ne _ (fun hEq => hr₀ hEq.symm)]; exact hc)]
        exact hr'
      · rw [pathKey_cons (show radixTreeSonAt (f n) r₀ = some c by
          rw [hfdef, sonAt_changeSon_ne _ (fun hEq => hr₀ hEq.symm)]; exact hc)]
        rw [pathKey_cons hc]
        simp [hfdef]

/-- Everything `radixTreeSplitNode` guarantees with a failure-free allocation
plan, on a non-root node split strictly inside its label: the node at `p` is
replaced by the fresh prefix node (with the original, relabelled to the label
remainder, as its only child), the tree stays well formed, the prefix node
represents the old key shortened by the label remainder, and every key the
tree held is kept. -/
theorem splitNode_spec {t n : RNode} {p : List Nat} {k : Nat}
    (hw : wfTree t = true) (hn : nodeAt t p = some n) (hp0 : p ≠ [])
    (hk0 : 0 < k) (hkl : k < n.txt.length) :
    ∃ t',
      radixTreeSplitNode [] t p k = ([], some t') ∧
      t' = updateAt t p (radixTreeSplitTransform k) ∧
      wfTree t' = true ∧
      nodeAt t' p = some (radixTreeSplitTransform k n) ∧
      (∀ base, pathKey t p = base ++ n.txt → pathKey t' p = base ++ n.txt.take k) ∧
      (∀ K, KeyIn t K → KeyIn t' K) := by
  obtain ⟨hne, hdig⟩ := wf_node_digits hw hn hp0
  have hwn : wfNode n = true := wfNode_nodeAt p t n (wfNode_of_wfTree hw) hn
  obtain ⟨Y, hY⟩ : ∃ Y, n.txt.take k = Y := ⟨_, rfl⟩
  obtain ⟨R, hR⟩ : ∃ R, n.txt.drop k = R := ⟨_, rfl⟩
  have hYR : Y ++ R = n.txt := by rw [← hY, ← hR]; exact List.take_append_drop k n.txt
  have hYlen : Y.length = k := by
    rw [← hY, List.length_take]
    omega
  have hRlen : R.length = n.txt.length - k := by
    rw [← hR, List.length_drop]
  have hYne : Y ≠ [] := by
    intro hc
    rw [hc] at hYlen
    simp only [List.length_nil] at hYlen
    omega
  have hRne : R ≠ [] := by
    intro hc
    rw [hc] at hRlen
    simp only [List.length_nil] at hRlen
    omega
  have hYdig : Y.all validSym = true := by
    rw [← hYR, List.all_append, Bool.and_eq_true] at hdig
    exact hdig.1
  have hRdig : R.all validSym = true := by
    rw [← hYR, List.all_append, Bool.and_eq_true] at hdig
    exact hdig.2
  have hYhd : Y.headD 0 = n.txt.headD 0 := by
    rw [← hYR]
    cases Y with
    | nil => exact absurd rfl hYne
    | cons y ys => simp
  have hh10 : R.headD 0 < RADIX_TREE_NUMBER_OF_SONS := by
    cases R with
    | nil => exact absurd rfl hRne
    | cons r rs =>
      simp only [List.all_cons, Bool.and_eq_true] at hRdig
      simpa [validSym, List.headD_cons] using hRdig.1
  obtain ⟨node', hnode'⟩ : ∃ node', RNode.mk R n.data n.sons = node' := ⟨_, rfl⟩
  have hwnode' : wfNode node' = true := by
    rw [← hnode']
    cases n with
    | mk t0 d0 s0 => simpa [wfNode] using hwn
  obtain ⟨M, hM⟩ : ∃ M, radixTreeSplitTransform k n = M := ⟨_, rfl⟩
  have hMeq : M = radixTreeChangeSon (RNode.mk Y none emptySons) (R.headD 0)
      (some node') := by
    rw [← hM, radixTreeSplitTransform, hY, hR, hnode']
  have hMtxt : M.txt = Y := by rw [hMeq]; simp
  have hMson : radixTreeSonAt M (R.headD 0) = some node' := by
    rw [hMeq]
    apply sonAt_changeSon_self
    simp only [RNode.sons_mk, emptySons, Sons.len_blank]
    exact hh10
  have hwM : wfNode M = true := by
    rw [hMeq]
    apply wfNode_changeSon_some (wfNode_leafNode Y none)
    · rw [← hnode']; simpa using hRne
    · rw [← hnode']; simp
    · rw [← hnode']; simpa using hRdig
    · exact hwnode'
  have hwt' : wfTree (updateAt t p (radixTreeSplitTransform k)) = true := by
    apply wfTree_updateAt hw hn (by rw [hM]; exact hwM)
    refine Or.inr ⟨hp0, ?_, ?_, ?_⟩
    · rw [hM, hMtxt]; exact hYne
    · rw [hM, hMtxt, hYhd]
    · rw [hM, hMtxt]; exact hYdig
  refine ⟨updateAt t p (radixTreeSplitTransform k), ?_, rfl, hwt', ?_, ?_, ?_⟩
  · simp [radixTreeSplitNode, allocStep]
  · have h0 := nodeAt_updateAt_append p t n (radixTreeSplitTransform k) [] hn
    simpa using h0
  · intro base hbase
    obtain ⟨base', hb1, hb2⟩ :=
      pathKey_updateAt_self p t n (radixTreeSplitTransform k) hn hp0
    have hbb : base' = base :=
      List.append_cancel_right (hb1.symm.trans hbase)
    subst hbb
    rw [hb2, hM, hMtxt, ← hY]
  · apply KeyIn_updateAt hn (fun hc => absurd hc hp0)
    intro r m hr
    rw [hM]
    cases r with
    | nil =>
      simp only [nodeAt_nil, Option.some.injEq] at hr
      refine ⟨[R.headD 0], node', ?_, ?_⟩
      · rw [nodeAt_cons hMson]
        simp
      · rw [pathKey_cons hMson, hMtxt, ← hnode']
        simp [hYR, hr]
    | cons r₀ rs =>
      refine ⟨R.headD 0 :: r₀ :: rs, m, ?_, ?_⟩
      · rw [nodeAt_cons hMson, ← hnode']
        rw [show nodeAt (RNode.mk R n.data n.sons) (r₀ :: rs) =
          nodeAt (RNode.mk n.txt n.data n.sons) (r₀ :: rs) from nodeAt_congr_sons r₀ rs]
        rw [RNode.eta]
        exact hr
      · rw [pathKey_cons hMson, hMtxt, ← hnode']
        rw [show pathKey (RNode.mk R n.data n.sons) (r₀ :: rs) =
          pathKey (RNode.mk n.txt n.data n.sons) (r₀ :: rs) from pathKey_congr_sons r₀ rs]
        rw [RNode.eta]
        simp only [RNode.txt_mk]
        rw [← List.append_assoc, hYR]

theorem pathKey_decomp {t n : RNode} {p : List Nat} (hn : nodeAt t p = some n)
    (hp : p ≠ []) : ∃ base, pathKey t p = base ++ n.txt := by
  obtain ⟨base, hb, _⟩ := pathKey_updateAt_self p t n id hn hp
  exact ⟨base, hb⟩

/-- `radixTreeFind` on a well-formed tree, fully characterized. -/
theorem find_spec {t : RNode} (K : List Nat) (hw : wfTree t = true) :
    ∃ p n X trem nrem,
      radixTreeFind t K = (radixTreeFindStatus ⟨p, trem, nrem⟩, ⟨p, trem, nrem⟩) ∧
      nodeAt t p = some n ∧
      pathKey t p = X ++ nrem ∧
      K = X ++ trem ∧
      (nrem ≠ [] → ∃ Y, Y ≠ [] ∧ n.txt = Y ++ nrem) ∧
      (p = [] → nrem = []) ∧
      (trem ≠ [] → nrem ≠ [] → nrem.headD 0 ≠ trem.headD 0) ∧
      (trem ≠ [] → nrem = [] → radixTreeSonAt n (trem.headD 0) = none) := by
  obtain ⟨p, n, X, trem, nrem, h1, h2, h3, h4, h5, h6, h7, h8⟩ :=
    findGo_spec K.length K le_rfl t [] K.length (wfNode_of_wfTree hw) le_rfl
  refine ⟨p, n, X, trem, nrem, ?_, h2, h3, h4, h5, h6, h7, h8⟩
  simp only [radixTreeFind, h1, List.nil_append]

/-- Splitting the node reached by a find outcome whose label remainder is
non-empty, at the matched boundary: the split succeeds on the failure-free
plan, the fresh prefix node represents exactly the matched part of the key,
and every other child slot of the prefix node is empty except the one holding
the relabelled original node. -/
theorem split_setup {t n : RNode} {p X nrem : List Nat}
    (hw : wfTree t = true) (hn : nodeAt t p = some n)
    (h3 : pathKey t p = X ++ nrem)
    (h5 : ∃ Y, Y ≠ [] ∧ n.txt = Y ++ nrem) (hnrem : nrem ≠ []) (hp0 : p ≠ []) :
    ∃ t',
      radixTreeSplitNode [] t p (n.txt.length - nrem.length) = ([], some t') ∧
      wfTree t' = true ∧
      nodeAt t' p =
        some (radixTreeSplitTransform (n.txt.length - nrem.length) n) ∧
      pathKey t' p = X ∧
      (∀ c, c ≠ nrem.headD 0 →
        radixTreeSonAt (radixTreeSplitTransform (n.txt.length - nrem.length) n) c
          = none) ∧
      (∀ K₀, KeyIn t K₀ → KeyIn t' K₀) := by
  obtain ⟨Y, hYne, hYeq⟩ := h5
  have hk : n.txt.length - nrem.length = Y.length := by
    rw [hYeq]
    simp
  have hk0 : 0 < n.txt.length - nrem.length := by
    rw [hk]
    exact List.length_pos.mpr hYne
  have hkl : n.txt.length - nrem.length < n.txt.length := by
    rw [hYeq]
    have h1 : 0 < nrem.length := List.length_pos.mpr hnrem
    simp only [List.length_append]
    omega
  have htake : n.txt.take (n.txt.length - nrem.length) = Y := by
    rw [hk, hYeq, List.take_left]
  have hdrop : n.txt.drop (n.txt.length - nrem.length) = nrem := by
    rw [hk, hYeq, List.drop_left]
  obtain ⟨t', he, _, hwt', hM, hkey, hmono⟩ := splitNode_spec hw hn hp0 hk0 hkl
  obtain ⟨base, hbase⟩ := pathKey_decomp hn hp0
  have hXbase : X = base ++ Y := by
    have h2 : X ++ nrem = (base ++ Y) ++ nrem := by
      rw [← h3, hbase, hYeq, List.append_assoc]
    exact List.append_cancel_right h2
  refine ⟨t', he, hwt', hM, ?_, ?_, hmono⟩
  · rw [hkey base hbase, htake, hXbase]
  · intro c hc
    rw [radixTreeSplitTransform, hdrop]
    rw [sonAt_changeSon_ne _ (fun hEq => hc hEq.symm)]
    simp [radixTreeSonAt, emptySons, radixTreeConvertCharToNumber]

/-- When the key extends the full key of a node with an empty slot for the
next symbol, one level of `radixTreeInsert` (any fuel) hangs a fresh leaf
there; the result is fuel-independent. -/
theorem insertFuel_missing {t n : RNode} {p X trem K : List Nat}
    (hw : wfTree t = true) (hn : nodeAt t p = some n) (hpk : pathKey t p = X)
    (hK : K = X ++ trem) (htrem : trem ≠ []) (hdig : trem.all validSym = true)
    (hmiss : radixTreeSonAt n (trem.headD 0) = none) :
    ∃ t',
      (∀ f, radixTreeInsertFuel (f + 1) [] t K =
        ([], some (t', p ++ [trem.headD 0]))) ∧
      wfTree t' = true ∧
      nodeAt t' (p ++ [trem.headD 0]) = some (RNode.mk trem none emptySons) ∧
      pathKey t' (p ++ [trem.headD 0]) = K ∧
      (∀ K₀, KeyIn t K₀ → KeyIn t' K₀) := by
  have hfind : radixTreeFind t K = (.notFound, ⟨p, trem, []⟩) :=
    find_missing hw hn hpk hK htrem hmiss
  obtain ⟨t', hleaf, hwt', hnode, hkey, hmono⟩ :=
    insertLeaf_spec hw hn htrem hdig hmiss
  refine ⟨t', ?_, hwt', hnode, by rw [hkey, hpk, hK], hmono⟩
  intro f
  simp only [radixTreeInsertFuel, hfind]
  simpa using hleaf

/-- All of what one successful `radixTreeInsert` guarantees on a well-formed
tree with a failure-free allocation plan: it succeeds, the result of any fuel
of at least 2 is the same, the returned node represents exactly the inserted
key in the rewritten (still well-formed) tree, and every key the tree held is
kept. -/
theorem insertFuel_spec (fuel : Nat) (t : RNode) (K : List Nat)
    (hw : wfTree t = true) (hNum : K.all validSym = true) :
    ∃ t' pr n',
      radixTreeInsertFuel (fuel + 2) [] t K = ([], some (t', pr)) ∧
      radixTreeInsertFuel 2 [] t K = ([], some (t', pr)) ∧
      wfTree t' = true ∧
      nodeAt t' pr = some n' ∧
      pathKey t' pr = K ∧
      (∀ K₀, KeyIn t K₀ → KeyIn t' K₀) := by
  obtain ⟨p, n, X, trem, nrem, hfind, hn, h3, h4, h5, h6, h7, h8⟩ := find_spec K hw
  by_cases htrem : trem = []
  · subst htrem
    by_cases hnrem : nrem = []
    · -- FOUND: the node already exists, nothing changes
      subst hnrem
      have hst : radixTreeFindStatus ⟨p, [], []⟩ = .found := by
        simp [radixTreeFindStatus]
      rw [hst] at hfind
      refine ⟨t, p, n, ?_, ?_, hw, hn, ?_, fun _ h => h⟩
      · simp only [radixTreeInsertFuel, hfind]
      · simp only [radixTreeInsertFuel, hfind]
      · rw [h3, h4]
    · -- SUBSTR: split at the matched boundary, return the new prefix node
      have hst : radixTreeFindStatus ⟨p, [], nrem⟩ = .substr := by
        simp [radixTreeFindStatus, hnrem]
      rw [hst] at hfind
      have hp0 : p ≠ [] := fun hc => hnrem (h6 hc)
      obtain ⟨t', hsplit, hwt', hM, hXkey, _, hmono⟩ :=
        split_setup hw hn h3 (h5 hnrem) hnrem hp0
      have hK : K = X := by rw [h4, List.append_nil]
      have hpt : radixTreeSplitPoint t ⟨p, [], nrem⟩ = n.txt.length - nrem.length := by
        simp [radixTreeSplitPoint, hn]
      have h1 : radixTreeInsertFuel (fuel + 2) [] t K = ([], some (t', p)) := by
        simp only [radixTreeInsertFuel, hfind, hpt, hsplit]
      have h2 : radixTreeInsertFuel 2 [] t K = ([], some (t', p)) := by
        simp only [radixTreeInsertFuel, hfind, hpt, hsplit]
      exact ⟨t', p, _, h1, h2, hwt', hM, by rw [hXkey, hK], hmono⟩
  · by_cases hnrem : nrem = []
    · -- NOT_FOUND at a missing child slot: hang a fresh leaf
      subst hnrem
      have hK : pathKey t p = X := by rw [h3, List.append_nil]
      have hdig : trem.all validSym = true := by
        rw [h4, List.all_append, Bool.and_eq_true] at hNum
        exact hNum.2
      obtain ⟨t', hrun, hwt', hnode, hkey, hmono⟩ :=
        insertFuel_missing hw hn hK h4 htrem hdig (h8 htrem rfl)
      exact ⟨t', p ++ [trem.headD 0], _, hrun (fuel + 1), hrun 1, hwt', hnode,
        hkey, hmono⟩
    · -- NOT_FOUND with a mid-label mismatch: split, then the retry hangs a leaf
      have hst : radixTreeFindStatus ⟨p, trem, nrem⟩ = .notFound := by
        simp [radixTreeFindStatus, htrem]
      rw [hst] at hfind
      have hp0 : p ≠ [] := fun hc => hnrem (h6 hc)
      obtain ⟨t', hsplit, hwt', hM, hXkey, hMnone, hmono⟩ :=
        split_setup hw hn h3 (h5 hnrem) hnrem hp0
      have hpt : radixTreeSplitPoint t ⟨p, trem, nrem⟩ =
          n.txt.length - nrem.length := by
        simp [radixTreeSplitPoint, hn]
      have hdig : trem.all validSym = true := by
        rw [h4, List.all_append, Bool.and_eq_true] at hNum
        exact hNum.2
      have hMmiss : radixTreeSonAt
          (radixTreeSplitTransform (n.txt.length - nrem.length) n)
          (trem.headD 0) = none :=
        hMnone _ (fun hEq => (h7 htrem hnrem) hEq.symm)
      obtain ⟨t'', hrun, hwt'', hnode, hkey, hmono'⟩ :=
        insertFuel_missing hwt' hM hXkey h4 htrem hdig hMmiss
      have hstep1 : radixTreeInsertFuel (fuel + 2) [] t K =
          radixTreeInsertFuel (fuel + 1) [] t' K := by
        simp only [radixTreeInsertFuel, hfind, hpt, hsplit, if_pos hnrem]
      have hstep2 : radixTreeInsertFuel 2 [] t K =
          radixTreeInsertFuel 1 [] t' K := by
        simp only [radixTreeInsertFuel, hfind, hpt, hsplit, if_pos hnrem]
      exact ⟨t'', p ++ [trem.headD 0], _, hstep1.trans (hrun fuel),
        hstep2.trans (hrun 0), hwt'', hnode, hkey,
        fun K₀ h => hmono' K₀ (hmono K₀ h)⟩

theorem wfTree_create : wfTree radixTreeCreate = true := by decide

/-- When find reports FOUND, insertion returns the reached node and leaves the
tree untouched (any fuel, any plan). -/
theorem insert_found {t : RNode} {K : List Nat} {out : FindOut}
    (hfind : radixTreeFind t K = (.found, out)) :
    ∀ plan, radixTreeInsert plan t K = (plan, some (t, out.node)) := by
  intro plan
  rw [radixTreeInsert]
  have : K.length + 2 = (K.length + 1) + 1 := rfl
  rw [this]
  simp only [radixTreeInsertFuel, hfind]

/-- `radixTreeInsert` on a well-formed tree with the failure-free plan:
success, a node representing exactly the key, well-formedness and key
preservation. -/
theorem insert_spec {t : RNode} {K : List Nat} (hw : wfTree t = true)
    (hNum : K.all validSym = true) :
    ∃ t' pr n',
      radixTreeInsert [] t K = ([], some (t', pr)) ∧
      wfTree t' = true ∧
      nodeAt t' pr = some n' ∧
      pathKey t' pr = K ∧
      (∀ K₀, KeyIn t K₀ → KeyIn t' K₀) := by
  obtain ⟨t', pr, n', h1, _, h3, h4, h5, h6⟩ := insertFuel_spec K.length t K hw hNum
  exact ⟨t', pr, n', h1, h3, h4, h5, h6⟩

/-- Folding a list of insertions keeps the tree well formed, keeps every key,
and makes every inserted key a key of the final tree. -/
theorem insertList_spec : ∀ (ks : List (List Nat)) (t : RNode),
    wfTree t = true → (∀ K ∈ ks, K.all validSym = true) →
    wfTree (insertList t ks) = true ∧
    (∀ K₀, KeyIn t K₀ → KeyIn (insertList t ks) K₀) ∧
    (∀ K ∈ ks, KeyIn (insertList t ks) K)
  | [], t, hw, _ => ⟨hw, fun _ h => h, by simp⟩
  | K :: ks, t, hw, hks => by
    obtain ⟨t', pr, n', h1, h3, h4, h5, h6⟩ :=
      insert_spec hw (hks K (by simp))
    have hstep : insertList t (K :: ks) = insertList t' ks := by
      simp only [insertList, h1]
    obtain ⟨ih1, ih2, ih3⟩ := insertList_spec ks t' h3
      (fun K' hK' => hks K' (by simp [hK']))
    rw [hstep]
    refine ⟨ih1, fun K₀ h => ih2 K₀ (h6 K₀ h), ?_⟩
    intro K' hK'
    rcases List.mem_cons.mp hK' with h | h
    · subst h
      exact ih2 K' ⟨pr, n', h4, h5⟩
    · exact ih3 K' h

/-- The bottom-up label walk of `radixGetFullText` computes the root-to-node
label concatenation. -/
theorem fullTextGo_eq_pathKey : ∀ (fuel : Nat) (p : List Nat) (t n : RNode),
    wfTree t = true → nodeAt t p = some n → p.length ≤ fuel →
    radixGetFullTextGo fuel t p = pathKey t p := by
  intro fuel
  induction fuel with
  | zero =>
    intro p t n hw hn hf
    have hp : p = [] := by
      cases p with
      | nil => rfl
      | cons a b => simp at hf
    subst hp
    simp [radixGetFullTextGo]
  | succ f ih =>
    intro p t n hw hn hf
    by_cases hp : p = []
    · subst hp
      simp only [radixGetFullTextGo, nodeAt_nil]
      rw [isRoot_of_wfTree hw]
      simp
    · obtain ⟨q, c, hqc⟩ : ∃ q c, p = q ++ [c] :=
        ⟨p.dropLast, p.getLast hp, (List.dropLast_append_getLast hp).symm⟩
      subst hqc
      obtain ⟨hne, hhd, hdig, _⟩ := wfNode_nodeAt_last (wfNode_of_wfTree hw) hn
      have hroot : radixTreeIsRoot n = false := isRoot_eq_false_of_digits hne hdig
      obtain ⟨m, hm⟩ : ∃ m, nodeAt t q = some m := by
        have h := hn
        rw [nodeAt_append] at h
        cases hq : nodeAt t q with
        | none => rw [hq] at h; exact absurd h (by simp)
        | some m => exact ⟨m, rfl⟩
      have hson : radixTreeSonAt m c = some n := by
        have h := hn
        rw [nodeAt_append, hm, Option.some_bind] at h
        obtain ⟨ch, hs, hch⟩ := nodeAt_cons_elim h
        simp only [nodeAt_nil, Option.some.injEq] at hch
        rwa [hch] at hs
      have hlen : q.length ≤ f := by
        simp only [List.length_append, List.length_cons, List.length_nil] at hf
        omega
      simp only [radixGetFullTextGo, hn, hroot, Bool.false_eq_true, if_false]
      have hdl : (q ++ [c]).dropLast = q := by simp
      rw [hdl, ih q t m hw hm hlen,
        pathKey_append q t m [c] hm, pathKey_cons hson]
      simp

/-- `radixGetFullText` (reconstructKey) with the failure-free plan returns
exactly the root-to-node label concatenation. -/
theorem getFullText_eq_pathKey {t n : RNode} {p : List Nat}
    (hw : wfTree t = true) (hn : nodeAt t p = some n) :
    radixGetFullText [] t p = ([], some (pathKey t p)) := by
  rw [radixGetFullText]
  simp only [allocStep]
  rw [fullTextGo_eq_pathKey (p.length + 1) p t n hw hn (by omega)]
  rfl

/-- C1: for every key K over the supported digit alphabet inserted into a
fresh tree (and not since deleted — no deletions occur here), `radixTreeFind`
reports Found, and `radixGetFullText` (reconstructKey) applied to the node it
returns yields exactly the string K. -/
theorem claim_C1 (ks : List (List Nat)) (hks : ∀ K ∈ ks, K.all validSym = true) :
    ∀ K ∈ ks, ∃ p,
      radixTreeFind (insertList radixTreeCreate ks) K = (.found, ⟨p, [], []⟩) ∧
      radixGetFullText [] (insertList radixTreeCreate ks) p = ([], some K) := by
  obtain ⟨hw, _, hkeys⟩ := insertList_spec ks radixTreeCreate wfTree_create hks
  intro K hK
  obtain ⟨p, n, hn, hkey⟩ := hkeys K hK
  exact ⟨p, find_found hw hn hkey, by rw [getFullText_eq_pathKey hw hn, hkey]⟩

/-- Witness for C1 at the spec §8 example keys 123, 124, 13. -/
theorem claim_C1_witness :
    (∀ K ∈ [[1, 2, 3], [1, 2, 4], [1, 3]], K.all validSym = true) ∧
    (∀ K ∈ [[1, 2, 3], [1, 2, 4], [1, 3]], ∃ p,
      radixTreeFind (insertList radixTreeCreate [[1, 2, 3], [1, 2, 4], [1, 3]]) K
        = (.found, ⟨p, [], []⟩) ∧
      radixGetFullText [] (insertList radixTreeCreate [[1, 2, 3], [1, 2, 4], [1, 3]]) p
        = ([], some K)) :=
  ⟨by decide, claim_C1 [[1, 2, 3], [1, 2, 4], [1, 3]] (by decide)⟩

/-- C2: insertion is idempotent — inserting K a second time (with no
intervening modification) returns the same node of the unchanged tree, and the
payload of that node is untouched. -/
theorem claim_C2 {t t₁ : RNode} {K pr : List Nat}
    (hw : wfTree t = true) (hK : K.all validSym = true)
    (h1 : radixTreeInsert [] t K = ([], some (t₁, pr))) :
    radixTreeInsert [] t₁ K = ([], some (t₁, pr)) ∧
    (∀ t₂ pr₂, radixTreeInsert [] t₁ K = ([], some (t₂, pr₂)) →
      radixTreeGetNodeData t₂ pr₂ = radixTreeGetNodeData t₁ pr) := by
  obtain ⟨t', pr', n', hEq, hwt', hn', hkey', _⟩ := insert_spec hw hK
  have hinj : t' = t₁ ∧ pr' = pr := by
    have h2 := hEq.symm.trans h1
    simpa using h2
  rw [← hinj.1, ← hinj.2]
  have hfind : radixTreeFind t' K = (.found, ⟨pr', [], []⟩) :=
    find_found hwt' hn' hkey'
  have hsecond : radixTreeInsert [] t' K = ([], some (t', pr')) :=
    insert_found hfind []
  refine ⟨hsecond, ?_⟩
  intro t₂ pr₂ h2
  have h4 : t' = t₂ ∧ pr' = pr₂ := by
    have h3 := hsecond.symm.trans h2
    simpa using h3
  rw [← h4.1, ← h4.2]

/-- Witness for C2: inserting the key 12 into a fresh tree, twice. -/
theorem claim_C2_witness :
    wfTree radixTreeCreate = true ∧
    ([1, 2] : List Nat).all validSym = true ∧
    radixTreeInsert [] radixTreeCreate [1, 2] =
      ([], some (radixTreeChangeSon radixTreeCreate 1
        (some (RNode.mk [1, 2] none emptySons)), [1])) ∧
    (radixTreeInsert []
        (radixTreeChangeSon radixTreeCreate 1
          (some (RNode.mk [1, 2] none emptySons))) [1, 2] =
      ([], some (radixTreeChangeSon radixTreeCreate 1
        (some (RNode.mk [1, 2] none emptySons)), [1])) ∧
    (∀ t₂ pr₂, radixTreeInsert []
        (radixTreeChangeSon radixTreeCreate 1
          (some (RNode.mk [1, 2] none emptySons))) [1, 2] = ([], some (t₂, pr₂)) →
      radixTreeGetNodeData t₂ pr₂ =
        radixTreeGetNodeData
          (radixTreeChangeSon radixTreeCreate 1
            (some (RNode.mk [1, 2] none emptySons))) [1])) :=
  ⟨by decide, by decide, by decide,
    @claim_C2 radixTreeCreate
      (radixTreeChangeSon radixTreeCreate 1 (some (RNode.mk [1, 2] none emptySons)))
      [1, 2] [1] (by decide) (by decide) (by decide)⟩

/-- C3: after any sequence of insertions into a fresh tree, every present
child of every node sits in the slot indexed by its label's first symbol (so
sibling leading symbols are pairwise distinct), and every non-root node's
label is non-empty. -/
theorem claim_C3 (ks : List (List Nat)) (hks : ∀ K ∈ ks, K.all validSym = true) :
    ∀ p n, nodeAt (insertList radixTreeCreate ks) p = some n →
      (∀ i c, Sons.get n.sons i = some c → c.txt ≠ [] ∧ c.txt.headD 0 = i) ∧
      (∀ i j ci cj, i ≠ j → Sons.get n.sons i = some ci →
        Sons.get n.sons j = some cj → ci.txt.headD 0 ≠ cj.txt.headD 0) ∧
      (p ≠ [] → n.txt ≠ []) := by
  obtain ⟨hw, _, _⟩ := insertList_spec ks radixTreeCreate wfTree_create hks
  intro p n hn
  have hwn : wfNode n = true := wfNode_nodeAt p _ n (wfNode_of_wfTree hw) hn
  refine ⟨?_, ?_, ?_⟩
  · intro i c hc
    have h := wfNode_son hwn (show radixTreeSonAt n i = some c from hc)
    exact ⟨h.1, h.2.1⟩
  · intro i j ci cj hij hci hcj
    have h1 := wfNode_son hwn (show radixTreeSonAt n i = some ci from hci)
    have h2 := wfNode_son hwn (show radixTreeSonAt n j = some cj from hcj)
    rw [h1.2.1, h2.2.1]
    exact hij
  · intro hp
    exact (wf_node_digits hw hn hp).1

/-- Witness for C3 at the spec §8 example keys (123, 124, 13 create a
branching structure with a structural node). -/
theorem claim_C3_witness :
    (∀ K ∈ [[1, 2, 3], [1, 2, 4], [1, 3]], K.all validSym = true) ∧
    (∀ p n, nodeAt (insertList radixTreeCreate [[1, 2, 3], [1, 2, 4], [1, 3]]) p
        = some n →
      (∀ i c, Sons.get n.sons i = some c → c.txt ≠ [] ∧ c.txt.headD 0 = i) ∧
      (∀ i j ci cj, i ≠ j → Sons.get n.sons i = some ci →
        Sons.get n.sons j = some cj → ci.txt.headD 0 ≠ cj.txt.headD 0) ∧
      (p ≠ [] → n.txt ≠ [])) :=
  ⟨by decide, claim_C3 [[1, 2, 3], [1, 2, 4], [1, 3]] (by decide)⟩

/-- C8: when find reports a mismatch mid-label, splitting the reached node at
the boundary makes the retried insertion resolve without hitting the
mismatch-mid-label case again (in fact it resolves to the bare missing-child
case), and consequently `radixTreeInsert` needs no more than one retry: every
fuel of at least 2 computes the same result. -/
theorem claim_C8 {t t' : RNode} {K : List Nat} {out : FindOut}
    (hw : wfTree t = true) (hK : K.all validSym = true)
    (hfind : radixTreeFind t K = (.notFound, out)) (hnr : out.nodeRem ≠ [])
    (hsplit : radixTreeSplitNode [] t out.node (radixTreeSplitPoint t out) =
      ([], some t')) :
    ((radixTreeFind t' K).1 = .found ∨ (radixTreeFind t' K).1 = .substr ∨
      ((radixTreeFind t' K).1 = .notFound ∧ (radixTreeFind t' K).2.nodeRem = [])) ∧
    (∀ fuel, radixTreeInsertFuel (fuel + 2) [] t K =
      radixTreeInsertFuel 2 [] t K) := by
  obtain ⟨p, n, X, trem, nrem, hfind', hn, h3, h4, h5, h6, h7, h8⟩ := find_spec K hw
  have hcomp := hfind.symm.trans hfind'
  simp only [Prod.mk.injEq] at hcomp
  obtain ⟨hst, hout⟩ := hcomp
  have htrem : trem ≠ [] := by
    intro hc
    subst hc
    by_cases hnrem0 : nrem = []
    · subst hnrem0
      simp [radixTreeFindStatus] at hst
    · simp [radixTreeFindStatus, hnrem0] at hst
  have hnrem : nrem ≠ [] := by
    rw [hout] at hnr
    exact hnr
  have hp0 : p ≠ [] := fun hc => hnrem (h6 hc)
  obtain ⟨t'₀, hsplit₀, hwt'₀, hM, hXkey, hMnone, hmono⟩ :=
    split_setup hw hn h3 (h5 hnrem) hnrem hp0
  have hpt : radixTreeSplitPoint t out = n.txt.length - nrem.length := by
    rw [hout]
    simp [radixTreeSplitPoint, hn]
  have hnode : out.node = p := by rw [hout]
  rw [hnode, hpt] at hsplit
  have ht' : t' = t'₀ := by
    have h := hsplit.symm.trans hsplit₀
    simpa using h
  subst ht'
  have hMmiss : radixTreeSonAt
      (radixTreeSplitTransform (n.txt.length - nrem.length) n)
      (trem.headD 0) = none :=
    hMnone _ (fun hEq => (h7 htrem hnrem) hEq.symm)
  have hfind2 : radixTreeFind t' K = (.notFound, ⟨p, trem, []⟩) :=
    find_missing hwt'₀ hM hXkey h4 htrem hMmiss
  constructor
  · right
    right
    rw [hfind2]
    exact ⟨rfl, rfl⟩
  · intro fuel
    obtain ⟨t₂, p₂, n₂, e1, e2, _, _, _, _⟩ := insertFuel_spec fuel t K hw hK
    rw [e1, e2]

/-- Witness for C8: the tree holding only the key 12, searched for 13 — find
mismatches mid-label inside the node labelled 12; after the split the retry
resolves to the missing-child case. -/
theorem claim_C8_witness :
    wfTree exTree12 = true ∧
    ([1, 3] : List Nat).all validSym = true ∧
    radixTreeFind exTree12 [1, 3] = (.notFound, ⟨[1], [3], [2]⟩) ∧
    (FindOut.mk [1] [3] [2]).nodeRem ≠ [] ∧
    radixTreeSplitNode [] exTree12 [1]
      (radixTreeSplitPoint exTree12 ⟨[1], [3], [2]⟩) = ([], some exTree12split) ∧
    (((radixTreeFind exTree12split [1, 3]).1 = .found ∨
      (radixTreeFind exTree12split [1, 3]).1 = .substr ∨
      ((radixTreeFind exTree12split [1, 3]).1 = .notFound ∧
        (radixTreeFind exTree12split [1, 3]).2.nodeRem = [])) ∧
    (∀ fuel, radixTreeInsertFuel (fuel + 2) [] exTree12 [1, 3] =
      radixTreeInsertFuel 2 [] exTree12 [1, 3])) :=
  ⟨by decide, by decide, by decide, by decide, by decide,
    @claim_C8 exTree12 exTree12split [1, 3] ⟨[1], [3], [2]⟩
      (by decide) (by decide) (by decide) (by decide) (by decide)⟩

/-- C9: on well-formed trees `radixTreeIsRoot` holds for the root and for no
other node — the sentinel label (modelled, per the spec, as a value outside
the digit alphabet) can never equal a label produced by insertion or
splitting, which are all non-empty digit strings. -/
theorem claim_C9 {t n : RNode} {p : List Nat} (hw : wfTree t = true)
    (hn : nodeAt t p = some n) :
    radixTreeIsRoot n = true ↔ p = [] := by
  constructor
  · intro hroot
    by_contra hp
    obtain ⟨hne, hdig⟩ := wf_node_digits hw hn hp
    rw [isRoot_eq_false_of_digits hne hdig] at hroot
    exact absurd hroot (by simp)
  · intro hp
    subst hp
    simp only [nodeAt_nil, Option.some.injEq] at hn
    subst hn
    exact isRoot_of_wfTree hw

/-- Witness for C9: the root and a non-root node of the tree holding key 12. -/
theorem claim_C9_witness :
    (wfTree exTree12 = true ∧
      nodeAt exTree12 [1] = some (RNode.mk [1, 2] none emptySons) ∧
      (radixTreeIsRoot (RNode.mk [1, 2] none emptySons) = true ↔
        ([1] : List Nat) = [])) ∧
    (radixTreeIsRoot exTree12 = true ↔ ([] : List Nat) = []) :=
  ⟨⟨by decide, by decide,
    @claim_C9 exTree12 (RNode.mk [1, 2] none emptySons) [1] (by decide) (by decide)⟩,
    @claim_C9 exTree12 exTree12 [] (by decide) (by decide)⟩

/-- C10: `radixTreeFindLite` returns exactly the status and the node of the
full `radixTreeFind` on the same arguments, merely discarding the two
remainder pointers — it is defined by calling `radixTreeFind`. -/
theorem claim_C10 (tree : RNode) (txt : List Nat) :
    radixTreeFindLite tree txt =
      ((radixTreeFind tree txt).1, (radixTreeFind tree txt).2.node) := rfl

theorem RNode.nodeCount_eq : ∀ n : RNode,
    RNode.nodeCount n = 1 + Sons.nodeCount n.sons
  | .mk _ _ _ => rfl

theorem Sons.nodeCount_blank : ∀ m : Nat, Sons.nodeCount (Sons.blank m) = 0
  | 0 => rfl
  | m + 1 => by simp [Sons.blank, Sons.nodeCount, Sons.nodeCount_blank m]

theorem Sons.nodeCount_set_blank : ∀ (m i : Nat) (c : RNode), i < m →
    Sons.nodeCount (Sons.set (Sons.blank m) i (some c)) = RNode.nodeCount c
  | 0, i, c, h => by omega
  | m + 1, 0, c, _ => by
    simp [Sons.blank, Sons.set, Sons.nodeCount, Sons.nodeCount_blank]
  | m + 1, i + 1, c, h => by
    simp only [Sons.blank, Sons.set, Sons.nodeCount]
    exact Sons.nodeCount_set_blank m i c (by omega)

theorem Sons.nodeCount_set_some : ∀ (s : Sons) (i : Nat) (c x : RNode),
    Sons.get s i = some c →
    Sons.nodeCount (Sons.set s i (some x)) + RNode.nodeCount c =
      Sons.nodeCount s + RNode.nodeCount x
  | .nil, _, _, _, hg => by simp [Sons.get] at hg
  | .cons hd tl, 0, c, x, hg => by
    simp only [Sons.get] at hg
    subst hg
    simp [Sons.set, Sons.nodeCount]
    omega
  | .cons hd tl, i + 1, c, x, hg => by
    simp only [Sons.get] at hg
    have h := Sons.nodeCount_set_some tl i c x hg
    cases hd with
    | none => simpa [Sons.set, Sons.nodeCount] using h
    | some c0 =>
      simp only [Sons.set, Sons.nodeCount]
      omega

theorem nodeCount_updateAt : ∀ (p : List Nat) (t n : RNode) (f : RNode → RNode),
    nodeAt t p = some n →
    RNode.nodeCount (updateAt t p f) + RNode.nodeCount n =
      RNode.nodeCount t + RNode.nodeCount (f n)
  | [], t, n, f, h => by
    simp only [nodeAt_nil, Option.some.injEq] at h
    subst h
    simp [Nat.add_comm]
  | c :: p, t, n, f, h => by
    obtain ⟨ch, hs, h⟩ := nodeAt_cons_elim h
    rw [updateAt_cons hs]
    have hset := Sons.nodeCount_set_some t.sons c ch (updateAt ch p f)
      (by simpa [radixTreeSonAt, radixTreeConvertCharToNumber] using hs)
    have ih := nodeCount_updateAt p ch n f h
    rw [RNode.nodeCount_eq (radixTreeChangeSon t c (some (updateAt ch p f))),
      RNode.nodeCount_eq t]
    simp only [radixTreeChangeSon, RNode.sons_mk, radixTreeConvertCharToNumber]
    omega

/-- Splitting a node strictly inside its label creates exactly one extra node:
the fresh prefix node; the relabelled original keeps its whole subtree. -/
theorem nodeCount_splitTransform {n : RNode} {k : Nat}
    (hh : (n.txt.drop k).headD 0 < RADIX_TREE_NUMBER_OF_SONS) :
    RNode.nodeCount (radixTreeSplitTransform k n) = RNode.nodeCount n + 1 := by
  rw [radixTreeSplitTransform]
  rw [RNode.nodeCount_eq (radixTreeChangeSon (RNode.mk (n.txt.take k) none emptySons)
    ((n.txt.drop k).headD 0) (some (RNode.mk (n.txt.drop k) n.data n.sons)))]
  simp only [radixTreeChangeSon, RNode.sons_mk, radixTreeConvertCharToNumber,
    emptySons]
  rw [Sons.nodeCount_set_blank _ _ _ hh]
  rw [RNode.nodeCount_eq (RNode.mk (n.txt.drop k) n.data n.sons),
    RNode.nodeCount_eq n]
  simp only [RNode.sons_mk]
  omega

/-- C7: split atomicity.  With every allocation outcome: either one of the
three allocations fails and `radixTreeSplitNode` reports failure producing no
rewritten tree — in the C all three allocations happen before any pointer
write, so the caller's tree is exactly as it was, which the functional
embedding renders by the failing run returning no tree at all — or all three
succeed and the only effect is the subtree rewrite at `p`, after which the
tree holds exactly one more node than before. -/
theorem claim_C7 {t n : RNode} {p : List Nat} {k : Nat}
    (hw : wfTree t = true) (hn : nodeAt t p = some n) (hp0 : p ≠ [])
    (hk0 : 0 < k) (hkl : k < n.txt.length) :
    ∀ plan : List Bool,
      (radixTreeSplitNode plan t p k).2 = none ∨
      ((radixTreeSplitNode plan t p k).2 =
          some (updateAt t p (radixTreeSplitTransform k)) ∧
        RNode.nodeCount (updateAt t p (radixTreeSplitTransform k)) =
          RNode.nodeCount t + 1) := by
  have hdig := (wf_node_digits hw hn hp0).2
  have hh : (n.txt.drop k).headD 0 < RADIX_TREE_NUMBER_OF_SONS := by
    cases hd : n.txt.drop k with
    | nil =>
      simp [RADIX_TREE_NUMBER_OF_SONS]
    | cons a b =>
      have hmem : a ∈ n.txt := by
        have : a ∈ n.txt.drop k := by rw [hd]; simp
        exact List.mem_of_mem_drop this
      have := List.all_eq_true.mp hdig a hmem
      simpa [validSym, List.headD_cons] using this
  have hcount : RNode.nodeCount (updateAt t p (radixTreeSplitTransform k)) =
      RNode.nodeCount t + 1 := by
    have h1 := nodeCount_updateAt p t n (radixTreeSplitTransform k) hn
    have h2 := nodeCount_splitTransform hh
    omega
  intro plan
  by_cases h1 : (allocStep plan).1
  · by_cases h2 : (allocStep (allocStep plan).2).1
    · by_cases h3 : (allocStep (allocStep (allocStep plan).2).2).1
      · right
        constructor
        · simp [radixTreeSplitNode, h1, h2, h3]
        · exact hcount
      · left
        simp [radixTreeSplitNode, h1, h2, h3]
    · left
      simp [radixTreeSplitNode, h1, h2]
  · left
    simp [radixTreeSplitNode, h1]

/-- Witness for C7 at the one-key tree: splitting the node labelled 12 one
symbol in. -/
theorem claim_C7_witness :
    wfTree exTree12 = true ∧
    nodeAt exTree12 [1] = some (RNode.mk [1, 2] none emptySons) ∧
    ([1] : List Nat) ≠ [] ∧ 0 < 1 ∧ 1 < (RNode.mk [1, 2] none emptySons).txt.length ∧
    (∀ plan : List Bool,
      (radixTreeSplitNode plan exTree12 [1] 1).2 = none ∨
      ((radixTreeSplitNode plan exTree12 [1] 1).2 =
          some (updateAt exTree12 [1] (radixTreeSplitTransform 1)) ∧
        RNode.nodeCount (updateAt exTree12 [1] (radixTreeSplitTransform 1)) =
          RNode.nodeCount exTree12 + 1)) :=
  ⟨by decide, by decide, by decide, by decide, by decide,
    @claim_C7 exTree12 (RNode.mk [1, 2] none emptySons) [1] 1
      (by decide) (by decide) (by decide) (by decide) (by decide)⟩

/-- Counterexample to C5 as stated: `exTreeBal` holds the key 12 (payload 7)
on a node reached by the path [1, 2]; that node holds a payload, so by the
claim balance should consume one budget step and stop climbing there, leaving
the tree untouched.  Instead the loop climbs on and merges the structural
parent labelled 1 with its only child, changing the tree. -/
theorem claim_C5_counterexample :
    radixTreeBalance [] exTreeBal [1, 2] =
      ([], radixTreeChangeSon radixTreeCreate 1
        (some (RNode.mk [1, 2] (some 7) emptySons))) ∧
    (radixTreeBalance [] exTreeBal [1, 2]).2 ≠ exTreeBal := by
  constructor
  · decide
  · decide

/-- C5 (amended): while climbing, at a node that is neither redundant nor
mergeable (a branching node or one holding a payload) `radixTreeBalance`
consumes one budget step and CONTINUES from the node's father — it does not
stop; the loop stops exactly when the current node is recognised as the root
or more than `canSkip = 5` budget steps have been consumed. -/
theorem claim_C5 {t n : RNode} {p : List Nat} (plan : List Bool)
    (skipped fuel : Nat) (hn : nodeAt t p = some n) :
    ((radixTreeIsRoot n = true ∨ radixTreeCanSkip < skipped) →
      radixTreeBalanceGo (fuel + 1) plan t p skipped = (plan, t)) ∧
    (radixTreeIsRoot n = false → skipped ≤ radixTreeCanSkip →
      radixTreeIsNodeRedundant n = false →
      radixTreeCanBeMergedWithSon n = false → p ≠ [] →
      radixTreeBalanceGo (fuel + 1) plan t p skipped =
        radixTreeBalanceGo fuel plan t p.dropLast (skipped + 1)) := by
  constructor
  · intro hstop
    simp only [radixTreeBalanceGo, hn]
    rw [if_pos]
    rcases hstop with h | h
    · exact Or.inl h
    · exact Or.inr h
  · intro hroot hsk hred hmerge hp
    simp only [radixTreeBalanceGo, hn]
    rw [if_neg (by
      rintro (h | h)
      · rw [hroot] at h; exact absurd h (by simp)
      · omega)]
    cases p with
    | nil => exact absurd rfl hp
    | cons c p' =>
      simp only [hred, Bool.false_eq_true, if_false, hmerge]

/-- Witness for C5 at `exTreeBal`: part one at the root, part two at the
payload-holding node reached by [1, 2]. -/
theorem claim_C5_witness :
    (nodeAt exTreeBal ([] : List Nat) = some exTreeBal ∧
      (radixTreeIsRoot exTreeBal = true ∨ radixTreeCanSkip < 0) ∧
      radixTreeBalanceGo 1 [] exTreeBal [] 0 = ([], exTreeBal)) ∧
    (nodeAt exTreeBal [1, 2] = some (RNode.mk [2] (some 7) emptySons) ∧
      radixTreeIsRoot (RNode.mk [2] (some 7) emptySons) = false ∧
      radixTreeIsNodeRedundant (RNode.mk [2] (some 7) emptySons) = false ∧
      radixTreeCanBeMergedWithSon (RNode.mk [2] (some 7) emptySons) = false ∧
      radixTreeBalanceGo 2 [] exTreeBal [1, 2] 0 =
        radixTreeBalanceGo 1 [] exTreeBal [1] 1) := by
  constructor
  · refine ⟨by decide, Or.inl (by decide), ?_⟩
    exact (@claim_C5 exTreeBal exTreeBal [] [] 0 0 (by decide)).1
      (Or.inl (by decide))
  · refine ⟨by decide, by decide, by decide, by decide, ?_⟩
    exact (@claim_C5 exTreeBal (RNode.mk [2] (some 7) emptySons) [1, 2] [] 0 1
      (by decide)).2 (by decide) (by decide) (by decide) (by decide) (by decide)

/-- C6, proved of the intended semantics of `radixTreeMerge` (the C source
falls off the end of this non-void function on its success path, see the
docstring of `radixTreeMerge`; the claim is therefore recorded as a code
bug and the theorem states the documented contract the code meant to
implement): at a mergeable node the climbing loop attempts the merge and
continues from the former parent regardless of the outcome; an allocation
failure consumes exactly one budget step and leaves the tree unchanged
(the loop continues on the untouched tree), while a successful merge
consumes none and replaces the node with its only child carrying the
concatenated label. -/
theorem claim_C6 {t n b : RNode} {p : List Nat} (skipped fuel : Nat)
    (hn : nodeAt t p = some n) (hroot : radixTreeIsRoot n = false)
    (hsk : skipped ≤ radixTreeCanSkip)
    (hred : radixTreeIsNodeRedundant n = false)
    (hmerge : radixTreeCanBeMergedWithSon n = true)
    (hb : radixTreeFristSon n = some b) (hp : p ≠ []) :
    (∀ plan', radixTreeMerge (false :: plan') t p = (plan', none) ∧
      radixTreeBalanceGo (fuel + 1) (false :: plan') t p skipped =
        radixTreeBalanceGo fuel plan' t p.dropLast (skipped + 1)) ∧
    (∀ plan', radixTreeMerge (true :: plan') t p =
        (plan', some (updateAt t p
          (fun _ => RNode.mk (n.txt ++ b.txt) b.data b.sons))) ∧
      radixTreeBalanceGo (fuel + 1) (true :: plan') t p skipped =
        radixTreeBalanceGo fuel plan'
          (updateAt t p (fun _ => RNode.mk (n.txt ++ b.txt) b.data b.sons))
          p.dropLast skipped) := by
  have hcond : ¬(radixTreeIsRoot n = true ∨ radixTreeCanSkip < skipped) := by
    rintro (h | h)
    · rw [hroot] at h; exact absurd h (by simp)
    · omega
  constructor
  · intro plan'
    have hmergeEq : radixTreeMerge (false :: plan') t p = (plan', none) := by
      simp [radixTreeMerge, hn, hb, allocStep]
    refine ⟨hmergeEq, ?_⟩
    simp only [radixTreeBalanceGo, hn]
    rw [if_neg hcond]
    cases p with
    | nil => exact absurd rfl hp
    | cons c p' =>
      simp only [hred, Bool.false_eq_true, if_false, hmerge, if_true, hmergeEq]
  · intro plan'
    have hmergeEq : radixTreeMerge (true :: plan') t p =
        (plan', some (updateAt t p
          (fun _ => RNode.mk (n.txt ++ b.txt) b.data b.sons))) := by
      simp [radixTreeMerge, hn, hb, allocStep]
    refine ⟨hmergeEq, ?_⟩
    simp only [radixTreeBalanceGo, hn]
    rw [if_neg hcond]
    cases p with
    | nil => exact absurd rfl hp
    | cons c p' =>
      simp only [hred, Bool.false_eq_true, if_false, hmerge, if_true, hmergeEq]

/-- Witness for C6 at `exTreeBal`: the structural node labelled 1 is
mergeable with its only child (the payload node labelled 2). -/
theorem claim_C6_witness :
    (nodeAt exTreeBal [1] =
        some (radixTreeChangeSon (RNode.mk [1] none emptySons) 2
          (some (RNode.mk [2] (some 7) emptySons))) ∧
      radixTreeIsRoot (radixTreeChangeSon (RNode.mk [1] none emptySons) 2
        (some (RNode.mk [2] (some 7) emptySons))) = false ∧
      radixTreeCanBeMergedWithSon (radixTreeChangeSon (RNode.mk [1] none emptySons) 2
        (some (RNode.mk [2] (some 7) emptySons))) = true) ∧
    (∀ plan', radixTreeMerge (false :: plan') exTreeBal [1] = (plan', none) ∧
      radixTreeBalanceGo 2 (false :: plan') exTreeBal [1] 1 =
        radixTreeBalanceGo 1 plan' exTreeBal [1].dropLast (1 + 1)) ∧
    (∀ plan', radixTreeMerge (true :: plan') exTreeBal [1] =
        (plan', some (updateAt exTreeBal [1]
          (fun _ => RNode.mk
            ((radixTreeChangeSon (RNode.mk [1] none emptySons) 2
              (some (RNode.mk [2] (some 7) emptySons))).txt ++
                (RNode.mk [2] (some 7) emptySons).txt)
            (RNode.mk [2] (some 7) emptySons).data
            (RNode.mk [2] (some 7) emptySons).sons))) ∧
      radixTreeBalanceGo 2 (true :: plan') exTreeBal [1] 1 =
        radixTreeBalanceGo 1 plan'
          (updateAt exTreeBal [1]
            (fun _ => RNode.mk
              ((radixTreeChangeSon (RNode.mk [1] none emptySons) 2
                (some (RNode.mk [2] (some 7) emptySons))).txt ++
                  (RNode.mk [2] (some 7) emptySons).txt)
              (RNode.mk [2] (some 7) emptySons).data
              (RNode.mk [2] (some 7) emptySons).sons))
          [1].dropLast 1) := by
  refine ⟨⟨by decide, by decide, by decide⟩, ?_, ?_⟩
  · exact (@claim_C6 exTreeBal
      (radixTreeChangeSon (RNode.mk [1] none emptySons) 2
        (some (RNode.mk [2] (some 7) emptySons)))
      (RNode.mk [2] (some 7) emptySons) [1] 1 1
      (by decide) (by decide) (by decide) (by decide) (by decide) (by decide)
      (by decide)).1
  · exact (@claim_C6 exTreeBal
      (radixTreeChangeSon (RNode.mk [1] none emptySons) 2
        (some (RNode.mk [2] (some 7) emptySons)))
      (RNode.mk [2] (some 7) emptySons) [1] 1 1
      (by decide) (by decide) (by decide) (by decide) (by decide) (by decide)
      (by decide)).2

theorem RNode.delSteps_eq : ∀ n : RNode, RNode.delSteps n = Sons.delSteps n.sons
  | .mk _ _ _ => rfl

theorem RNode.postPayloads_eq : ∀ n : RNode,
    RNode.postPayloads n = Sons.postPayloads n.sons ++ n.data.toList
  | .mk _ _ _ => rfl

theorem Sons.dropS_zero (s : Sons) : Sons.dropS s 0 = s := by
  cases s  <;> rfl

theorem Sons.dropS_cons : ∀ (s : Sons) (j : Nat) (hd : Option RNode) (tl : Sons),
    Sons.dropS s j = Sons.cons hd tl →
    Sons.get s j = hd ∧ Sons.dropS s (j + 1) = tl ∧ j < Sons.len s
  | .nil, 0, hd, tl, h => by simp [Sons.dropS] at h
  | .nil, j + 1, hd, tl, h => by simp [Sons.dropS] at h
  | .cons a b, 0, hd, tl, h => by
    rw [Sons.dropS_zero] at h
    cases h
    exact ⟨rfl, Sons.dropS_zero b, by simp [Sons.len]⟩
  | .cons a b, j + 1, hd, tl, h => by
    have h' : Sons.dropS b j = Sons.cons hd tl := h
    obtain ⟨h1, h2, h3⟩ := Sons.dropS_cons b j hd tl h'
    refine ⟨h1, h2, by simp [Sons.len]; omega⟩

theorem Sons.dropS_set_lt : ∀ (s : Sons) (i j : Nat) (v : Option RNode), i < j →
    Sons.dropS (Sons.set s i v) j = Sons.dropS s j
  | .nil, _, _, _, _ => by simp [Sons.set]
  | .cons a b, 0, 0, v, h => by omega
  | .cons a b, 0, j + 1, v, _ => by
    show Sons.dropS (Sons.cons v b) (j + 1) = Sons.dropS (Sons.cons a b) (j + 1)
    rfl
  | .cons a b, i + 1, 0, v, h => by omega
  | .cons a b, i + 1, j + 1, v, h => by
    show Sons.dropS (Sons.set b i v) j = Sons.dropS b j
    exact Sons.dropS_set_lt b i j v (by omega)

theorem Sons.dropS_len_nil : ∀ s : Sons, Sons.dropS s (Sons.len s) = Sons.nil
  | .nil => rfl
  | .cons a b => by
    show Sons.dropS (Sons.cons a b) (Sons.len b + 1) = Sons.nil
    exact Sons.dropS_len_nil b

theorem radixTreeDelRun_succ (m : Nat) (s : DelState) :
    radixTreeDelRun (m + 1) s = radixTreeDelRun m (radixTreeDelStep s) := rfl

theorem radixTreeDelRun_add : ∀ (a b : Nat) (s : DelState),
    radixTreeDelRun (a + b) s = radixTreeDelRun b (radixTreeDelRun a s)
  | 0, b, s => by simp [radixTreeDelRun]
  | a + 1, b, s => by
    have h : a + 1 + b = (a + b) + 1 := by omega
    rw [h, radixTreeDelRun_succ, radixTreeDelRun_succ,
      radixTreeDelRun_add a b (radixTreeDelStep s)]

theorem RNode.sizeOf_pos : ∀ n : RNode, 0 < sizeOf n
  | .mk t d s => by simp

theorem RNode.sizeOf_sons_lt : ∀ n : RNode, sizeOf n.sons < sizeOf n
  | .mk t d s => by simp

theorem Sons.sizeOf_get : ∀ (s : Sons) (j : Nat) (c : RNode),
    Sons.get s j = some c → sizeOf c < sizeOf s
  | .nil, _, _, h => by simp [Sons.get] at h
  | .cons hd tl, 0, c, h => by
    simp only [Sons.get] at h
    subst h
    simp
    omega
  | .cons hd tl, j + 1, c, h => by
    simp only [Sons.get] at h
    have := Sons.sizeOf_get tl j c h
    simp
    omega

theorem Sons.sizeOf_set_none : ∀ (s : Sons) (j : Nat) (c : RNode),
    Sons.get s j = some c → sizeOf (Sons.set s j none) < sizeOf s
  | .nil, _, _, h => by simp [Sons.get] at h
  | .cons hd tl, 0, c, h => by
    simp only [Sons.get] at h
    subst h
    have := RNode.sizeOf_pos c
    simp [Sons.set]
    omega
  | .cons hd tl, j + 1, c, h => by
    simp only [Sons.get] at h
    have := Sons.sizeOf_set_none tl j c h
    simp [Sons.set]
    omega

theorem sizeOf_changeSon_none {n c : RNode} {j : Nat}
    (h : Sons.get n.sons j = some c) :
    sizeOf (radixTreeChangeSon n j none) < sizeOf n := by
  cases n with
  | mk t d s =>
    simp only [RNode.sons_mk] at h
    have := Sons.sizeOf_set_none s j c h
    simp [radixTreeChangeSon, radixTreeConvertCharToNumber]
    omega

theorem delStep_skip {n : RNode} {j : Nat} {stack : List (RNode × Nat)}
    {out : List Nat} (hj : j ≠ RADIX_TREE_NUMBER_OF_SONS)
    (hget : Sons.get n.sons j = none) :
    radixTreeDelStep ⟨n, j, stack, out⟩ = ⟨n, j + 1, stack, out⟩ := by
  simp [radixTreeDelStep, hj, hget]

theorem delStep_descend {n c : RNode} {j : Nat} {stack : List (RNode × Nat)}
    {out : List Nat} (hj : j ≠ RADIX_TREE_NUMBER_OF_SONS)
    (hget : Sons.get n.sons j = some c) :
    radixTreeDelStep ⟨n, j, stack, out⟩ = ⟨c, 0, (n, j + 1) :: stack, out⟩ := by
  simp [radixTreeDelStep, hj, hget]

theorem delStep_pop {n par : RNode} {j : Nat} {stack : List (RNode × Nat)}
    {out : List Nat} :
    radixTreeDelStep ⟨n, RADIX_TREE_NUMBER_OF_SONS, (par, j) :: stack, out⟩ =
      ⟨radixTreeChangeSon par (n.txt.headD 0) none, j, stack,
        out ++ n.data.toList⟩ := by
  simp [radixTreeDelStep]

/-- Core teardown lemma: starting the slot scan of a well-formed node at slot
`j` (with the remaining slots being `tl`), the loop examines those slots in
order, tears down each present child completely — collecting its payloads in
post-order and clearing its slot in the node — and stops scanning with the
resumption index one past the last slot, the saved stack and the previously
collected payloads untouched. -/
theorem delRun_spec : ∀ (N : Nat) (tl : Sons) (n : RNode), sizeOf n ≤ N →
    wfNode n = true → ∀ (j : Nat) (stack : List (RNode × Nat)) (out : List Nat),
    Sons.dropS n.sons j = tl →
    ∃ sons',
      radixTreeDelRun (Sons.delSteps tl) ⟨n, j, stack, out⟩ =
        ⟨RNode.mk n.txt n.data sons', j + Sons.len tl, stack,
          out ++ Sons.postPayloads tl⟩ := by
  intro N
  induction N with
  | zero =>
    intro tl n hsz
    exact absurd hsz (by have := RNode.sizeOf_pos n; omega)
  | succ N IH =>
    have inner : ∀ (M : Nat) (tl : Sons), Sons.len tl ≤ M → ∀ (n : RNode),
        sizeOf n ≤ N + 1 → wfNode n = true →
        ∀ (j : Nat) (stack : List (RNode × Nat)) (out : List Nat),
        Sons.dropS n.sons j = tl →
        ∃ sons',
          radixTreeDelRun (Sons.delSteps tl) ⟨n, j, stack, out⟩ =
            ⟨RNode.mk n.txt n.data sons', j + Sons.len tl, stack,
              out ++ Sons.postPayloads tl⟩ := by
      intro M
      induction M with
      | zero =>
        intro tl hlen n hsz hw j stack out hdrop
        cases tl with
        | cons hd tl => exact absurd hlen (by simp [Sons.len])
        | nil =>
          refine ⟨n.sons, ?_⟩
          show (⟨n, j, stack, out⟩ : DelState) = _
          rw [RNode.eta]
          simp [Sons.len, Sons.postPayloads]
      | succ M ihM =>
        intro tl hlen n hsz hw j stack out hdrop
        cases tl with
        | nil =>
          refine ⟨n.sons, ?_⟩
          show (⟨n, j, stack, out⟩ : DelState) = _
          rw [RNode.eta]
          simp [Sons.len, Sons.postPayloads]
        | cons hd tl =>
          obtain ⟨hget, hdrop', hlt⟩ := Sons.dropS_cons _ _ _ _ hdrop
          have hlen' : Sons.len tl ≤ M := by
            simp only [Sons.len] at hlen
            omega
          have hj : j ≠ RADIX_TREE_NUMBER_OF_SONS := by
            have := wfNode_len hw
            omega
          cases hd with
          | none =>
            rw [show Sons.delSteps (Sons.cons none tl) = 1 + Sons.delSteps tl from rfl,
              radixTreeDelRun_add 1,
              show radixTreeDelRun 1 ⟨n, j, stack, out⟩ = ⟨n, j + 1, stack, out⟩ from by
                rw [radixTreeDelRun_succ, delStep_skip hj hget]
                rfl]
            obtain ⟨sons', hrec⟩ := ihM tl hlen' n hsz hw (j + 1) stack out hdrop'
            refine ⟨sons', ?_⟩
            rw [hrec]
            simp only [Sons.len, Sons.postPayloads]
            congr 1
            omega
          | some c =>
            obtain ⟨hcne, hchd, hcdig, hcwf⟩ := wfNode_son hw
              (show radixTreeSonAt n j = some c from hget)
            have hszc : sizeOf c ≤ N := by
              have h1 := Sons.sizeOf_get n.sons j c hget
              have h2 := RNode.sizeOf_sons_lt n
              omega
            obtain ⟨csons', hcrec⟩ := IH c.sons c hszc hcwf 0
              ((n, j + 1) :: stack) out (Sons.dropS_zero c.sons)
            have hpop : radixTreeDelRun 1
                ⟨RNode.mk c.txt c.data csons', 0 + Sons.len c.sons,
                  (n, j + 1) :: stack, out ++ Sons.postPayloads c.sons⟩ =
                ⟨radixTreeChangeSon n j none, j + 1, stack,
                  (out ++ Sons.postPayloads c.sons) ++ c.data.toList⟩ := by
              rw [radixTreeDelRun_succ,
                show 0 + Sons.len c.sons = RADIX_TREE_NUMBER_OF_SONS from by
                  rw [wfNode_len hcwf]
                  exact Nat.zero_add _,
                delStep_pop, RNode.txt_mk, hchd]
              rfl
            rw [show Sons.delSteps (Sons.cons (some c) tl) =
                (1 + (Sons.delSteps c.sons + 1)) + Sons.delSteps tl from by
                  rw [← RNode.delSteps_eq]
                  rfl,
              radixTreeDelRun_add (1 + (Sons.delSteps c.sons + 1)) (Sons.delSteps tl),
              radixTreeDelRun_add 1 (Sons.delSteps c.sons + 1),
              show radixTreeDelRun 1 ⟨n, j, stack, out⟩ =
                ⟨c, 0, (n, j + 1) :: stack, out⟩ from by
                  rw [radixTreeDelRun_succ, delStep_descend hj hget]
                  rfl,
              radixTreeDelRun_add (Sons.delSteps c.sons) 1, hcrec, hpop]
            obtain ⟨sons', hrec2⟩ := ihM tl hlen' (radixTreeChangeSon n j none) (by
                have := sizeOf_changeSon_none hget
                omega) (wfNode_changeSon_none hw j) (j + 1) stack
              ((out ++ Sons.postPayloads c.sons) ++ c.data.toList) (by
                show Sons.dropS (radixTreeChangeSon n j none).sons (j + 1) = tl
                simp only [radixTreeChangeSon, RNode.sons_mk, radixTreeConvertCharToNumber]
                rw [Sons.dropS_set_lt _ _ _ _ (by omega)]
                exact hdrop')
            refine ⟨sons', ?_⟩
            rw [hrec2]
            simp only [changeSon_txt, changeSon_data, Sons.len, Sons.postPayloads,
              RNode.postPayloads_eq]
            congr 1
            all_goals first
              | omega
              | simp [List.append_assoc]
    intro tl n hsz hw j stack out hdrop
    exact inner (Sons.len tl) tl le_rfl n (by omega) hw j stack out hdrop

/-- Claim C4: deleting the subtree rooted at the node at path `p` of a
well-formed tree hands the finalizer exactly the payloads of that subtree, in
post-order — every node's descendants are finalized before the node itself,
and the subtree root comes last — and afterwards no node of the subtree is
reachable from the remaining tree: when `p` names a proper subtree its
father's slot is cleared, so every path extending `p` leads nowhere, and when
`p` names the root the whole tree is destroyed. -/
theorem claim_C4 {t n : RNode} {p : List Nat} (hw : wfTree t = true)
    (hn : nodeAt t p = some n) :
    (radixTreeDeleteSubTree t p).2 = RNode.postPayloads n ∧
    (p ≠ [] → ∃ t', (radixTreeDeleteSubTree t p).1 = some t' ∧
      ∀ q : List Nat, nodeAt t' (p ++ q) = none) ∧
    (p = [] → (radixTreeDeleteSubTree t p).1 = none) := by
  have hwn : wfNode n = true := wfNode_nodeAt p t n (wfNode_of_wfTree hw) hn
  obtain ⟨sons', hrun⟩ := delRun_spec (sizeOf n) n.sons n le_rfl hwn 0 [] []
    (Sons.dropS_zero n.sons)
  have hout : (radixTreeDelRun (RNode.delSteps n)
      (⟨n, 0, [], []⟩ : DelState)).out ++ n.data.toList =
      RNode.postPayloads n := by
    rw [RNode.delSteps_eq, hrun, RNode.postPayloads_eq]
    simp
  by_cases hp : p = []
  · subst hp
    have hnt : t = n := by simpa using hn
    have hroot : radixTreeIsRoot n = true := by
      rw [← hnt]
      exact isRoot_of_wfTree hw
    refine ⟨?_, fun h => absurd rfl h, fun _ => ?_⟩
    · simp only [radixTreeDeleteSubTree, hn, hroot, if_true]
      exact hout
    · simp only [radixTreeDeleteSubTree, hn, hroot, if_true]
  · obtain ⟨q0, c, hpeq⟩ : ∃ q0 c, p = q0 ++ [c] :=
      ⟨p.dropLast, p.getLast hp, (List.dropLast_append_getLast hp).symm⟩
    obtain ⟨htne, hhd, hall, _⟩ :=
      wfNode_nodeAt_last (wfNode_of_wfTree hw) (hpeq ▸ hn)
    have hroot : radixTreeIsRoot n = false := isRoot_eq_false_of_digits htne hall
    have hc10 : c < RADIX_TREE_NUMBER_OF_SONS := by
      obtain ⟨x, xs, hx⟩ : ∃ x xs, n.txt = x :: xs := by
        cases htxt : n.txt with
        | nil => exact absurd htxt htne
        | cons x xs => exact ⟨x, xs, rfl⟩
      rw [hx] at hhd hall
      simp only [List.headD_cons] at hhd
      simp only [List.all_cons, Bool.and_eq_true, validSym, decide_eq_true_eq] at hall
      omega
    obtain ⟨fa, hfa⟩ : ∃ fa, nodeAt t q0 = some fa := by
      have h2 := hn
      rw [hpeq, nodeAt_append] at h2
      cases hq : nodeAt t q0 with
      | none => rw [hq] at h2; exact absurd h2 (by simp)
      | some fa => exact ⟨fa, rfl⟩
    have hfawf : wfNode fa = true := wfNode_nodeAt q0 t fa (wfNode_of_wfTree hw) hfa
    have hdl : p.dropLast = q0 := by rw [hpeq]; simp
    have hreach : ∀ q : List Nat,
        nodeAt (updateAt t q0 (fun x => radixTreeChangeSon x c none))
          (p ++ q) = none := by
      intro q
      rw [hpeq, List.append_assoc,
        nodeAt_updateAt_append q0 t fa (fun x => radixTreeChangeSon x c none)
          ([c] ++ q) hfa]
      show nodeAt (radixTreeChangeSon fa c none) (c :: q) = none
      exact nodeAt_cons_none
        (sonAt_changeSon_self none (by rw [wfNode_len hfawf]; exact hc10)) q
    refine ⟨?_, fun _ => ?_, fun h => absurd h hp⟩
    · simp only [radixTreeDeleteSubTree, hn, hroot, Bool.false_eq_true, if_false]
      exact hout
    · refine ⟨updateAt t p.dropLast
        (fun x => radixTreeChangeSon x (n.txt.headD 0) none), ?_, ?_⟩
      · simp only [radixTreeDeleteSubTree, hn, hroot, Bool.false_eq_true, if_false]
      · intro q
        rw [hhd, hdl]
        exact hreach q

/-- Witness for claim C4 at a concrete two-level subtree: tearing down the
subtree at path `[1]` of `exTreeBal` finalizes exactly the payload `7` of its
grandchild (the only payload in that subtree), and in the remaining tree the
path `[1]` leads nowhere. -/
theorem claim_C4_witness :
    wfTree exTreeBal = true ∧
    nodeAt exTreeBal [1] =
      some (radixTreeChangeSon (RNode.mk [1] none emptySons) 2
        (some (RNode.mk [2] (some 7) emptySons))) ∧
    (radixTreeDeleteSubTree exTreeBal [1]).2 = [7] ∧
    ∃ t', (radixTreeDeleteSubTree exTreeBal [1]).1 = some t' ∧
      nodeAt t' [1] = none := by
  have h := @claim_C4 exTreeBal
    (radixTreeChangeSon (RNode.mk [1] none emptySons) 2
      (some (RNode.mk [2] (some 7) emptySons))) [1] (by decide) (by decide)
  obtain ⟨h1, h2, _⟩ := h
  obtain ⟨t', ht1, ht2⟩ := h2 (by decide)
  exact ⟨by decide, by decide, by rw [h1]; decide,
    ⟨t', ht1, by simpa using ht2 []⟩⟩
